import Mathlib

/-!
Verification of the cloudify DSL compilation pipeline (dsl_parser/parser.py).

Python dictionaries are modelled as association lists with unique keys,
mutation as explicit state passing, and the
recursive inheritance walks (`_create_type_hierarchy`, `_is_derived_from`)
with an explicit fuel parameter since the Python code performs no cycle
detection.  Raised exceptions become `Except` errors carrying the numeric
code of the corresponding `DSLParsingLogicException`; an unstructured Python
`KeyError` is a distinct error constructor, and `stuck` marks the places a
fuel-free Python run would diverge (or, equivalently, exhaust its stack).
-/

/-- Python dict lookup `d[k]` / `d.get(k)` on an association list: returns the
value of the first entry with the given key. -/
def dictGet (d : List (String × β)) (k : String) : Option β :=
  match d with
  | [] => none
  | (k', v) :: rest => if k' = k then some v else dictGet rest k

/-- Python `k in d` on an association list. -/
def dictContains (d : List (String × β)) (k : String) : Bool :=
  (dictGet d k).isSome

/-- Python dict assignment `d[k] = v`: replaces the value in place when the
key is present, appends a new entry otherwise. -/
def dictSet (d : List (String × β)) (k : String) (v : β) : List (String × β) :=
  if dictContains d k then d.map (fun p => if p.1 = k then (k, v) else p)
  else d ++ [(k, v)]

/-- Python `del d[k]`: removes the entry with the given key. -/
def dictErase (d : List (String × β)) (k : String) : List (String × β) :=
  d.filter (fun p => p.1 ≠ k)

/-- The keys of an association-list dictionary, in entry order
(Python `d.keys()`). -/
def dictKeys (d : List (String × β)) : List String :=
  d.map (fun p => p.1)

/-- A generic YAML-like value tree, the shape of the data produced by
`yaml.safe_load` as the parser manipulates it. -/
inductive Val where
  | str (s : String)
  | null
  | seq (items : List Val)
  | map (entries : List (String × Val))

/-- Structural equality on YAML values, the embedding of the Python `==` / `!=`
comparisons the parser performs on parsed-document values. -/
def Val.beq : Val → Val → Bool
  | .str a, .str b => a == b
  | .null, .null => true
  | .seq a, .seq b => goSeq a b
  | .map a, .map b => goMap a b
  | _, _ => false
where
  goSeq : List Val → List Val → Bool
    | [], [] => true
    | x :: xs, y :: ys => Val.beq x y && goSeq xs ys
    | _, _ => false
  goMap : List (String × Val) → List (String × Val) → Bool
    | [], [] => true
    | (k, x) :: xs, (l, y) :: ys => k == l && Val.beq x y && goMap xs ys
    | _, _ => false

/-- A Python dictionary of properties (property name to value). -/
abbrev Props := List (String × Val)

/-- Python `s.startswith(p)`. -/
def strStartsWith (s p : String) : Bool :=
  p.data.isPrefixOf s.data

/-- Python slicing `s[n:]`. -/
def strDrop (s : String) (n : Nat) : String :=
  ⟨s.data.drop n⟩

/-- `HOST_TYPE` from the source. -/
def hostTypeName : String := "cloudify.types.host"

/-- `DEPENDS_ON_REL_TYPE` from the source. -/
def dependsOnRelType : String := "cloudify.relationships.depends_on"

/-- `CONTAINED_IN_REL_TYPE` from the source. -/
def containedInRelType : String := "cloudify.relationships.contained_in"

/-- `CONNECTED_TO_REL_TYPE` from the source. -/
def connectedToRelType : String := "cloudify.relationships.connected_to"

/-- `VERSION` from the source (the `tosca_definitions_version` key). -/
def versionKey : String := "tosca_definitions_version"

/-- `IMPORTS` from the source. -/
def importsKey : String := "imports"

/-- Modelled from the spec: `constants.SCRIPT_PLUGIN_NAME` lives in the missing
`constants` module; per the spec the script-plugin fallback requires a plugin
named `script`. -/
def scriptPluginName : String := "script"

/-- Modelled from the spec: `constants.SCRIPT_PATH_PROPERTY` lives in the
missing `constants` module; per the spec the script path is injected under the
`script_path` payload key. -/
def scriptPathProperty : String := "script_path"

/-- Modelled from the spec: `constants.SCRIPT_PLUGIN_RUN_TASK` lives in the
missing `constants` module (the spec names it only as the script-plugin run
task), so its exact value is an opaque stand-in here. -/
def scriptPluginRunTask : String := "script_plugin.run_task"

/-- Modelled from the spec: `constants.SCRIPT_PLUGIN_EXECUTE_WORKFLOW_TASK`
lives in the missing `constants` module (the spec names it only as the
script-plugin workflow task), so its exact value is an opaque stand-in here. -/
def scriptPluginExecuteWorkflowTask : String := "script_plugin.execute_workflow_task"

/-- A node type or relationship type as the hierarchy walks see it: only the
optional `derived_from` field and the `properties` schema are consulted by the
code under verification. -/
structure DslType where
  derived_from : Option String := none
  properties : Props := []

/-- `_create_type_hierarchy` from the source, with an explicit fuel parameter:
the Python code recurses on `derived_from` links with no cycle detection, and
`none` models the unproductive outcomes (missing type, which raises `KeyError`
in Python, or running out of fuel, where Python would recurse forever on a
cyclic chain).  On success it returns the hierarchy with the root first and the
queried type name last. -/
def createTypeHierarchy : Nat → String → List (String × DslType) → Option (List String)
  | 0, _, _ => none
  | fuel + 1, typeName, types =>
    match dictGet types typeName with
    | none => none
    | some currentType =>
      match currentType.derived_from with
      | none => some [typeName]
      | some parentTypeName =>
        match createTypeHierarchy fuel parentTypeName types with
        | none => none
        | some typesHierarchy => some (typesHierarchy ++ [typeName])

/-- `_is_derived_from` from the source, with an explicit fuel parameter:
`some b` is the Boolean the Python function returns, `none` models a missing
type (Python `KeyError`) or fuel exhaustion (Python nontermination on a cyclic
`derived_from` chain). -/
def isDerivedFrom : Nat → String → List (String × DslType) → String → Option Bool
  | 0, _, _, _ => none
  | fuel + 1, typeName, types, derivedFrom =>
    if typeName = derivedFrom then some true
    else
      match dictGet types typeName with
      | none => none
      | some t =>
        match t.derived_from with
        | none => some false
        | some parent => isDerivedFrom fuel parent types derivedFrom

/-- `_build_family_descendants_set` from the source: the names in the types
dictionary that derive from (or equal) the given family root. -/
def buildFamilyDescendantsSet (fuel : Nat) (typesDict : List (String × DslType))
    (derivedFrom : String) : List String :=
  (dictKeys typesDict).filter
    (fun typeName => isDerivedFrom fuel typeName typesDict derivedFrom = some true)

/-- The errors the modelled pipeline fragments can produce: a
`DSLParsingLogicException` with its numeric code, an unstructured Python
`KeyError` on a dictionary, or `stuck` for a place where the fuel-free Python
recursion would not return (cyclic `derived_from` chain or missing type during
a derivation test). -/
inductive PErr where
  | logic (code : Nat)
  | keyError (key : String)
  | stuck
deriving DecidableEq

/-- One operation entry of an interface (or one workflow mapping): either a
plain string mapping, or a mapping/spec dictionary.  For the dictionary form,
`mapping` models the value found under the mode-dependent mapping field
(`mapping` for workflows, `implementation` for node operations) and `payload`
the value found under the mode-dependent payload field (`parameters` for
workflows, `inputs` for node operations); a missing field is `none`, matching
the `.get(field, default)` reads in the source. -/
inductive OpContent where
  | str (s : String)
  | spec (mapping : Option String) (payload : Option Props)

/-- The dictionary built by `_operation_struct` in the source: `plugin` and
`operation` keys, plus the payload field (named `parameters` or `inputs`)
when the payload is not `None`. -/
structure OpStruct where
  plugin : String
  operation : String
  payloadField : String
  payload : Option Props

/-- The result of `_operation_struct(plugin_name, operation_mapping,
operation_properties, properties_field_name)`. -/
def operationStruct (pluginName operationMapping : String)
    (operationProperties : Option Props) (propertiesFieldName : String) : OpStruct :=
  { plugin := pluginName, operation := operationMapping,
    payloadField := propertiesFieldName, payload := operationProperties }

/-- The `OpDescriptor` named tuple of the source.  The Python `plugin` field is
either the empty string (falsy) or the declared-plugin value; `none` models the
falsy case.  `α` is the type of processed-plugin values. -/
structure OpDescriptor (α : Type) where
  name : String
  plugin : Option α
  op_struct : OpStruct

/-- The body of the longest-prefix loop in
`_extract_plugin_name_and_operation_mapping_from_operation`: a plugin name is
recorded when the mapping starts with it followed by a dot and it is strictly
longer than the best prefix seen so far. -/
def bestPluginStep (operationMapping : String) (acc : Nat × Option String)
    (pluginName : String) : Nat × Option String :=
  if strStartsWith operationMapping (pluginName ++ ".") then
    if pluginName.length > acc.1 then (pluginName.length, some pluginName)
    else acc
  else acc

/-- `_extract_plugin_name_and_operation_mapping_from_operation` from the
source.  The resource probe `_resource_exists` performs network I/O, so it is
abstracted as the Boolean function `resourceExists` applied to the joined URL;
`resourceBase = none` models a falsy `resource_base`. -/
def extractPluginNameAndOperationMappingFromOperation {α : Type}
    (plugins : List (String × α)) (pluginNames : List String)
    (operationName : String) (operationContent : OpContent)
    (errorCode : Nat) (resourceBase : Option String)
    (resourceExists : String → Bool) (isWorkflows : Bool) :
    Except PErr (OpDescriptor α) :=
  let payloadFieldName := if isWorkflows then "parameters" else "inputs"
  let operationMapping := match operationContent with
    | .str s => s
    | .spec m _ => m.getD ""
  let operationPayload : Option Props := match operationContent with
    | .str _ => none
    | .spec _ p => some (p.getD [])
  if operationMapping = "" then
    .ok { name := operationName, plugin := none,
          op_struct := operationStruct "" "" (some []) payloadFieldName }
  else
    let best := pluginNames.foldl (bestPluginStep operationMapping) (0, none)
    match best.2 with
    | some longestPlugin =>
      match dictGet plugins longestPlugin with
      | some pluginValue =>
        .ok { name := operationName, plugin := some pluginValue,
              op_struct := operationStruct longestPlugin
                (strDrop operationMapping (best.1 + 1))
                operationPayload payloadFieldName }
      | none => .error (.keyError longestPlugin)
    | none =>
      match resourceBase with
      | some rb =>
        if resourceExists (rb ++ "/" ++ operationMapping) then
          let payload := operationPayload.getD []
          if dictContains payload scriptPathProperty then
            .error (.logic 60)
          else
            let scriptPath := operationMapping
            let newMappingPayload :=
              if isWorkflows then
                (scriptPluginExecuteWorkflowTask,
                 dictSet payload scriptPathProperty
                   (.map [("default", .str scriptPath),
                          ("description",
                           .str "Workflow script executed by the script plugin")]))
              else
                (scriptPluginRunTask,
                 dictSet payload scriptPathProperty (.str scriptPath))
            match dictGet plugins scriptPluginName with
            | some scriptPluginValue =>
              .ok { name := operationName, plugin := some scriptPluginValue,
                    op_struct := operationStruct scriptPluginName
                      newMappingPayload.1 (some newMappingPayload.2)
                      payloadFieldName }
            | none => .error (.logic 61)
        else .error (.logic errorCode)
      | none => .error (.logic errorCode)

/-- `_process_workflows` from the source: binds every workflow mapping through
the plugin binder (in workflow mode) and keeps the resulting operation
structs. -/
def processWorkflows {α : Type} (workflows : List (String × OpContent))
    (plugins : List (String × α)) (resourceBase : Option String)
    (resourceExists : String → Bool) : Except PErr (List (String × OpStruct)) :=
  go workflows
where
  go : List (String × OpContent) → Except PErr (List (String × OpStruct))
    | [] => .ok []
    | (name, mapping) :: rest => do
      let opDescriptor ← extractPluginNameAndOperationMappingFromOperation
        plugins (dictKeys plugins) name mapping 21 resourceBase resourceExists true
      let processedRest ← go rest
      .ok ((name, opDescriptor.op_struct) :: processedRest)

/-- `_create_plan_workflow_plugins` from the source: collects the declared
plugin of every workflow, deduplicating by plugin name; looking up a plugin
name that was never declared raises a Python `KeyError`. -/
def createPlanWorkflowPlugins {α : Type} (workflows : List (String × OpStruct))
    (plugins : List (String × α)) : Except PErr (List α) :=
  go workflows []
where
  go : List (String × OpStruct) → List String → Except PErr (List α)
    | [], _ => .ok []
    | (_, opStruct) :: rest, seenNames =>
      if opStruct.plugin ∈ seenNames then go rest seenNames
      else
        match dictGet plugins opStruct.plugin with
        | none => .error (.keyError opStruct.plugin)
        | some pluginValue => do
          let restPlugins ← go rest (opStruct.plugin :: seenNames)
          .ok (pluginValue :: restPlugins)

/-- An interface: a dictionary from operation name to operation content. -/
abbrev Iface := List (String × OpContent)

/-- A dictionary of interfaces, keyed by interface name. -/
abbrev IfaceDict := List (String × Iface)

/-- `_extract_plugin_names_and_operation_mapping_from_interface` from the
source: binds every operation of one interface, in entry order. -/
def extractPluginNamesAndOperationMappingFromInterface {α : Type}
    (interface : Iface) (plugins : List (String × α)) (errorCode : Nat)
    (resourceBase : Option String) (resourceExists : String → Bool) :
    Except PErr (List (OpDescriptor α)) :=
  match interface with
  | [] => .ok []
  | (operationName, operationContent) :: rest => do
    let opDescriptor ← extractPluginNameAndOperationMappingFromOperation
      plugins (dictKeys plugins) operationName operationContent errorCode
      resourceBase resourceExists false
    let restDescriptors ← extractPluginNamesAndOperationMappingFromInterface
      rest plugins errorCode resourceBase resourceExists
    .ok (opDescriptor :: restDescriptors)

/-- The operations dictionary built by `_process_context_operations`: an entry
whose value is `none` is one that was marked for removal because its implicit
short operation name was claimed by more than one interface. -/
abbrev OpsMap := List (String × Option OpStruct)

/-- The inner loop of `_process_context_operations` for the descriptors of one
interface: updates the per-node plugins dictionary from each descriptor with a
truthy plugin, records the operation under its short name (overwriting an
already-present short entry with the removal marker `none`) and under its
`interface.op` long name. -/
def processInterfaceDescriptors {α : Type} (interfaceName : String)
    (descriptors : List (OpDescriptor α)) (st : OpsMap × List (String × α)) :
    OpsMap × List (String × α) :=
  descriptors.foldl
    (fun st opDescriptor =>
      let opStruct := opDescriptor.op_struct
      let pluginName := opDescriptor.op_struct.plugin
      let operationName := opDescriptor.name
      let nodePlugins := match opDescriptor.plugin with
        | some pluginValue => dictSet st.2 pluginName pluginValue
        | none => st.2
      let operations :=
        if dictContains st.1 operationName then dictSet st.1 operationName none
        else dictSet st.1 operationName (some opStruct)
      let operations :=
        dictSet operations (interfaceName ++ "." ++ operationName) (some opStruct)
      (operations, nodePlugins))
    st

/-- The interface loop of `_process_context_operations`, threading the
operations dictionary and the per-node plugins dictionary. -/
def processContextLoop {α : Type} (plugins : List (String × α)) (errorCode : Nat)
    (resourceBase : Option String) (resourceExists : String → Bool) :
    OpsMap × List (String × α) → IfaceDict →
    Except PErr (OpsMap × List (String × α))
  | st, [] => .ok st
  | st, (interfaceName, interface) :: rest => do
    let descriptors ← extractPluginNamesAndOperationMappingFromInterface
      interface plugins errorCode resourceBase resourceExists
    processContextLoop plugins errorCode resourceBase resourceExists
      (processInterfaceDescriptors interfaceName descriptors st) rest

/-- `_process_context_operations` from the source.  The Python function
mutates `node[PLUGINS]` in place and returns the operations dictionary with
the `None`-marked entries filtered out; here both the filtered operations
dictionary and the updated per-node plugins dictionary are returned. -/
def processContextOperations {α : Type} (interfaces : IfaceDict)
    (plugins : List (String × α)) (nodePlugins : List (String × α))
    (errorCode : Nat) (resourceBase : Option String)
    (resourceExists : String → Bool) :
    Except PErr (List (String × OpStruct) × List (String × α)) := do
  let st ← processContextLoop plugins errorCode resourceBase resourceExists
    ([], nodePlugins) interfaces
  .ok (st.1.filterMap (fun p => p.2.map (fun opStruct => (p.1, opStruct))), st.2)

/-- `_get_implementation` from the source, generic over the implementation
record type (`implType` projects its `type` field).  The Python function
mutates the implementations dictionary (deleting the applied entry) and may
raise, so the result pairs the outcome with the dictionary as it is left:
ambiguity and derivation failures leave it untouched, only a successfully
applied implementation is consumed.  A derivation probe that would not return
in Python (missing type or cyclic chain, `isDerivedFrom` giving `none`) is
`stuck`. -/
def getImplementation {α : Type} (typeName : String) (impls : List (String × α))
    (types : List (String × DslType)) (errCodeAmbig errCodeDerive : Nat)
    (candidateFunc : α → Bool) (implType : α → String) (fuel : Nat) :
    Except PErr (Option α) × List (String × α) :=
  let candidates := impls.filter (fun p => candidateFunc p.2)
  if candidates.length > 1 then (.error (.logic errCodeAmbig), impls)
  else
    match candidates with
    | [] => (.ok none, impls)
    | (implName, impl) :: _ =>
      match isDerivedFrom fuel (implType impl) types typeName with
      | some true => (.ok (some impl), dictErase impls implName)
      | some false => (.error (.logic errCodeDerive), impls)
      | none => (.error .stuck, impls)

/-- A `relationship_implementations` entry as `_get_relationship_implementation_if_exists`
reads it: its `type`, the source/target node references, and its properties. -/
structure RelImpl where
  type : String
  source_node_ref : String
  target_node_ref : String
  properties : Props := []

/-- `_get_relationship_implementation_if_exists` from the source: looks for the
unique candidate implementation matching the `(source, target)` edge whose type
derives from the declared relationship type; ambiguity raises code 108 and a
derivation failure code 109, both leaving the implementations dictionary
unchanged; an applied implementation is consumed and overrides the relationship
type and the implementation properties. -/
def getRelationshipImplementationIfExists (sourceNodeName targetNodeName : String)
    (relationshipImpls : List (String × RelImpl)) (relationshipType : String)
    (relationships : List (String × DslType)) (fuel : Nat) :
    Except PErr (String × Props) × List (String × RelImpl) :=
  let candidateFunc := fun (implContent : RelImpl) =>
    implContent.source_node_ref = sourceNodeName &&
    implContent.target_node_ref = targetNodeName &&
    isDerivedFrom fuel implContent.type relationships relationshipType = some true
  match getImplementation relationshipType relationshipImpls relationships
      108 109 candidateFunc (fun implContent => implContent.type) fuel with
  | (.error e, implsOut) => (.error e, implsOut)
  | (.ok none, implsOut) => (.ok (relationshipType, []), implsOut)
  | (.ok (some impl), implsOut) => (.ok (impl.type, impl.properties), implsOut)

/-- A relationship instance as it appears on a node template before node
processing: the declared `type`, the `target` node name and the fields the
interface/property merges read. -/
structure RawRel where
  type : String
  target : String
  source_interfaces : Option IfaceDict := none
  target_interfaces : Option IfaceDict := none
  properties : Option Props := none

/-- A relationship instance after `_process_node_relationships`: the `target`
key renamed to `target_id`, `state` set, interfaces and properties merged.
The `base` field is added later by post-processing (`none` until then). -/
structure ProcessedRel where
  type : String
  target_id : String
  state : String
  source_interfaces : IfaceDict := []
  target_interfaces : IfaceDict := []
  properties : Props := []
  base : Option String := none

/-- The body of the relationship loop in `_process_node_relationships`.
The two merge steps call `interfaces_parser.merge_relationship_type_and_instance_interfaces`
and `merge_schema_and_instance_properties`, which live in modules absent from
the sources, so they are taken as the parameters `mergeIfaces` (relationship
complete type and instance to merged source/target interfaces) and
`mergeProps` (instance properties, implementation properties and type schema
to merged properties, or a property-validation error).  The returned
implementations dictionary reflects any consumption performed by the
implementation lookup, which in Python happens before the validations that may
raise. -/
def processOneNodeRelationship (nodeName : String) (nodeNamesSet : List String)
    (topLevelRelationships : List (String × DslType))
    (mergeIfaces : DslType → RawRel → IfaceDict × IfaceDict)
    (mergeProps : Props → Props → Props → Except PErr Props) (fuel : Nat)
    (relationshipImpls : List (String × RelImpl)) (relationship : RawRel) :
    Except PErr ProcessedRel × List (String × RelImpl) :=
  match getRelationshipImplementationIfExists nodeName relationship.target
      relationshipImpls relationship.type topLevelRelationships fuel with
  | (.error e, implsOut) => (.error e, implsOut)
  | (.ok (relationshipType, implProperties), implsOut) =>
    let relationship := { relationship with type := relationshipType }
    if relationship.target ∉ nodeNamesSet then (.error (.logic 25), implsOut)
    else if relationship.target = nodeName then (.error (.logic 23), implsOut)
    else
      match dictGet topLevelRelationships relationshipType with
      | none => (.error (.logic 26), implsOut)
      | some relationshipCompleteType =>
        let mergedInterfaces := mergeIfaces relationshipCompleteType relationship
        match mergeProps (relationship.properties.getD []) implProperties
            relationshipCompleteType.properties with
        | .error e => (.error e, implsOut)
        | .ok mergedProperties =>
          (.ok { type := relationshipType,
                 target_id := relationship.target,
                 state := "reachable",
                 source_interfaces := mergedInterfaces.1,
                 target_interfaces := mergedInterfaces.2,
                 properties := mergedProperties }, implsOut)

/-- The relationship loop of `_process_node_relationships`: processes the
instances in order, threading the (possibly consumed) implementations
dictionary; the first failure aborts with the dictionary as it is. -/
def processNodeRelationshipsLoop (nodeName : String) (nodeNamesSet : List String)
    (topLevelRelationships : List (String × DslType))
    (mergeIfaces : DslType → RawRel → IfaceDict × IfaceDict)
    (mergeProps : Props → Props → Props → Except PErr Props) (fuel : Nat) :
    List (String × RelImpl) → List RawRel → List ProcessedRel →
    Except PErr (List ProcessedRel) × List (String × RelImpl)
  | impls, [], acc => (.ok acc, impls)
  | impls, relationship :: rest, acc =>
    match processOneNodeRelationship nodeName nodeNamesSet topLevelRelationships
        mergeIfaces mergeProps fuel impls relationship with
    | (.ok processed, implsOut) =>
      processNodeRelationshipsLoop nodeName nodeNamesSet topLevelRelationships
        mergeIfaces mergeProps fuel implsOut rest (acc ++ [processed])
    | (.error e, implsOut) => (.error e, implsOut)

/-- `_process_node_relationships` from the source: when the node template
declares a `relationships` list, every instance is validated and rewritten;
a node without the key is left without processed relationships. -/
def processNodeRelationships (nodeName : String) (nodeNamesSet : List String)
    (topLevelRelationships : List (String × DslType))
    (mergeIfaces : DslType → RawRel → IfaceDict × IfaceDict)
    (mergeProps : Props → Props → Props → Except PErr Props) (fuel : Nat)
    (relationshipImpls : List (String × RelImpl))
    (nodeRelationships : Option (List RawRel)) :
    Except PErr (Option (List ProcessedRel)) × List (String × RelImpl) :=
  match nodeRelationships with
  | none => (.ok none, relationshipImpls)
  | some relationships =>
    match processNodeRelationshipsLoop nodeName nodeNamesSet
        topLevelRelationships mergeIfaces mergeProps fuel relationshipImpls
        relationships [] with
    | (.ok processed, implsOut) => (.ok (some processed), implsOut)
    | (.error e, implsOut) => (.error e, implsOut)

/-- `_add_base_type_to_relationship` from the source: assigns the `base` field
by testing the relationship type against the three family-descendant sets in
order (contained, connected, depends, else undefined) and records the type in
the contained-in accumulator when the first test hits. -/
def addBaseTypeToRelationship (containedInRelTypes connectedToRelTypes
    dependsOnRelTypes : List String) (relationship : ProcessedRel)
    (containedInRelationships : List String) : ProcessedRel × List String :=
  let relType := relationship.type
  if relType ∈ containedInRelTypes then
    ({ relationship with base := some "contained" },
     containedInRelationships ++ [relType])
  else if relType ∈ connectedToRelTypes then
    ({ relationship with base := some "connected" }, containedInRelationships)
  else if relType ∈ dependsOnRelTypes then
    ({ relationship with base := some "depends" }, containedInRelationships)
  else
    ({ relationship with base := some "undefined" }, containedInRelationships)

/-- The base-classification and containment-check portion of
`_post_process_node_relationships` from the source: every relationship of the
node receives its `base` via `addBaseTypeToRelationship`, and after the loop a
node with more than one contained-in relationship fails with logic error 112
carrying the offending relationship types.  (The operation binding and
type-hierarchy enrichment performed by the same Python loop act on disjoint
fields and are modelled by `processContextOperations` and
`createTypeHierarchy`.) -/
def postProcessNodeRelationshipBases (containedInRelTypes connectedToRelTypes
    dependsOnRelTypes : List String) (relationships : List ProcessedRel) :
    Except (Nat × List String) (List ProcessedRel) :=
  let result := relationships.foldl
    (fun (acc : List ProcessedRel × List String) relationship =>
      let step := addBaseTypeToRelationship containedInRelTypes
        connectedToRelTypes dependsOnRelTypes relationship acc.2
      (acc.1 ++ [step.1], step.2))
    ([], [])
  if result.2.length > 1 then .error (112, result.2) else .ok result.1

/-- A processed node as the host-id derivation of `_post_process_nodes` sees
it: its `id`, resolved `type`, optional processed relationships (`none` when
the `relationships` key is absent) and the `host_id` key (`none` until the
post-processing step sets it). -/
structure PNode where
  id : String
  type : String
  relationships : Option (List ProcessedRel) := none
  host_id : Option String := none

/-- `_extract_node_host_id` from the source, with an explicit fuel parameter
(the Python recursion climbs contained-in edges with no cycle detection).  A
host-typed node is its own host; otherwise the first relationship whose type
lies in the contained-in family is followed to its target.  `none` models the
Python `None` result (no contained-in edge), and also the out-of-model
outcomes excluded by the theorems below (missing target, which would raise
`KeyError`, and fuel exhaustion on a cyclic containment chain). -/
def extractNodeHostId : Nat → (String → Option PNode) → List String →
    List String → PNode → Option String
  | 0, _, _, _, _ => none
  | fuel + 1, nodeNameToNode, hostTypes, containedInRelTypes, processedNode =>
    if processedNode.type ∈ hostTypes then some processedNode.id
    else
      match processedNode.relationships with
      | none => none
      | some relationships =>
        match relationships.find?
            (fun rel => decide (rel.type ∈ containedInRelTypes)) with
        | none => none
        | some rel =>
          match nodeNameToNode rel.target_id with
          | none => none
          | some targetNode =>
            extractNodeHostId fuel nodeNameToNode hostTypes
              containedInRelTypes targetNode

/-- The `host_id`-setting step of `_post_process_nodes` for one node:
`if host_id: node['host_id'] = host_id` — the key is set only when the
extracted value is truthy (not `None` and not the empty string). -/
def setNodeHostId (fuel : Nat) (nodeNameToNode : String → Option PNode)
    (hostTypes containedInRelTypes : List String) (node : PNode) : PNode :=
  match extractNodeHostId fuel nodeNameToNode hostTypes containedInRelTypes
      node with
  | none => node
  | some hostId => if hostId = "" then node else { node with host_id := some hostId }

/-- An error of the import merger: a `DSLParsingLogicException` whose `info`
carries the structured names in its message (for code 4 the top-level key
followed by the conflict path, for code 3 the non-mergeable key), or `crash`
for a Python `AttributeError` when a whitelisted section is not a dictionary
(`iteritems` on a non-dict). -/
inductive MergeErr where
  | logic (code : Nat) (info : List String)
  | crash
deriving DecidableEq

/-- `merge_no_override` from `_combine_imports`: the top-level keys whose
sections are merged entry by entry without overriding. -/
def mergeNoOverride : List String :=
  ["interfaces", "node_types", "plugins", "workflows", "type_implementations",
   "relationships", "relationship_implementations", "policy_types", "groups",
   "policy_triggers"]

/-- `merge_one_nested_level_no_override` from `_combine_imports`: built as an
empty dictionary in the source, so its branch of the merge loop is dead. -/
def mergeOneNestedLevelNoOverride : List String := []

/-- `_merge_into_dict_or_throw_on_duplicate` from the source: adds each entry
of `fromDict` to `toDict`; an already-present entry key raises logic error 4
whose info names the top-level key and the conflict path. -/
def mergeIntoDictOrThrowOnDuplicate (fromDict toDict : List (String × Val))
    (topLevelKey : String) (path : List String) :
    Except MergeErr (List (String × Val)) :=
  match fromDict with
  | [] => .ok toDict
  | (key, value) :: rest =>
    if dictContains toDict key then
      .error (.logic 4 (topLevelKey :: (path ++ [key])))
    else
      mergeIntoDictOrThrowOnDuplicate rest (toDict ++ [(key, value)])
        topLevelKey path

/-- The per-key merge loop of `_combine_imports` for one imported document
(the `for key, value in parsed_imported_dsl.iteritems()` loop): `imports` is
skipped, an absent key is assigned, a whitelisted key is merged entry by
entry, the (empty) one-nested-level whitelist is consulted, and any other
already-present key raises logic error 3. -/
def mergeImportKeys : List (String × Val) → List (String × Val) →
    Except MergeErr (List (String × Val))
  | combined, [] => .ok combined
  | combined, (key, value) :: rest =>
    if key = importsKey then mergeImportKeys combined rest
    else
      match dictGet combined key with
      | none => mergeImportKeys (combined ++ [(key, value)]) rest
      | some existing =>
        if key ∈ mergeNoOverride then
          match value, existing with
          | .map fromDict, .map toDict =>
            match mergeIntoDictOrThrowOnDuplicate fromDict toDict key [] with
            | .error e => .error e
            | .ok merged => mergeImportKeys (dictSet combined key (.map merged)) rest
          | _, _ => .error .crash
        else if key ∈ mergeOneNestedLevelNoOverride then
          match value, existing with
          | .map fromDict, .map toDict =>
            match mergeNestedLevel fromDict toDict key with
            | .error e => .error e
            | .ok merged => mergeImportKeys (dictSet combined key (.map merged)) rest
          | _, _ => .error .crash
        else .error (.logic 3 [key])
where
  /-- The `merge_one_nested_level_no_override` branch body (dead code in the
  source, since that whitelist is empty). -/
  mergeNestedLevel : List (String × Val) → List (String × Val) → String →
      Except MergeErr (List (String × Val))
    | [], toDict, _ => .ok toDict
    | (nestedKey, nestedValue) :: rest, toDict, key =>
      match dictGet toDict nestedKey with
      | none => mergeNestedLevel rest (toDict ++ [(nestedKey, nestedValue)]) key
      | some nestedExisting =>
        match nestedValue, nestedExisting with
        | .map fromNested, .map toNested =>
          match mergeIntoDictOrThrowOnDuplicate fromNested toNested key
              [nestedKey] with
          | .error e => .error e
          | .ok merged =>
            mergeNestedLevel rest (dictSet toDict nestedKey (.map merged)) key
        | _, _ => .error .crash

/-- The handling of one imported document inside the import loop of
`_combine_imports`: an imported `tosca_definitions_version` must equal the
root version (else logic error 28) and is dropped before the per-key merge. -/
def mergeSingleImport (dslVersion : Val) (combined imported : List (String × Val)) :
    Except MergeErr (List (String × Val)) :=
  match dictGet imported versionKey with
  | some importedVersion =>
    if Val.beq importedVersion dslVersion then
      mergeImportKeys combined (dictErase imported versionKey)
    else .error (.logic 28 [])
  | none => mergeImportKeys combined imported

/-- The import loop of `_combine_imports`, folding the already-fetched,
already-parsed imported documents into the combined document in order. -/
def combineImportsLoop (dslVersion : Val) : List (String × Val) →
    List (List (String × Val)) → Except MergeErr (List (String × Val))
  | combined, [] => .ok combined
  | combined, imported :: rest =>
    match mergeSingleImport dslVersion combined imported with
    | .error e => .error e
    | .ok merged => combineImportsLoop dslVersion merged rest

/-- The pure core of `_combine_imports` from the source: the root document
must carry `tosca_definitions_version` (else logic error 27); without an
`imports` key the (deep-copied) root is returned as is; otherwise the imported
documents — fetched, parsed and ref-inlined upstream, which is I/O outside
this model — are merged in order and the now unnecessary `imports` key is
deleted from the result. -/
def combineImports (parsedDsl : List (String × Val))
    (importedDocs : List (List (String × Val))) :
    Except MergeErr (List (String × Val)) :=
  match dictGet parsedDsl versionKey with
  | none => .error (.logic 27 [])
  | some dslVersion =>
    if dictContains parsedDsl importsKey then
      match combineImportsLoop dslVersion parsedDsl importedDocs with
      | .error e => .error e
      | .ok combined => .ok (dictErase combined importsKey)
    else .ok parsedDsl

mutual
/-- Modelled from the spec: the plan tree as the function validator
(`_validate_functions`) walks it.  The `scan` and `functions` modules it calls
are absent from the sources; per the spec the validator scans every leaf of
the plan, replaces each leaf that parses as a `get_property` intrinsic with an
opaque function instance carrying the raw original leaf, and at the end walks
the plan again restoring every function instance to its raw form.  `raw` is an
untouched leaf, `inst` a function instance holding the raw leaf it replaced,
and `node` an inner mapping (sequences are mappings with positional keys in
this model). -/
inductive PlanVal where
  | raw : Val → PlanVal
  | inst : Val → PlanVal
  | node : PlanEntries → PlanVal
/-- The entry list of an inner plan mapping. -/
inductive PlanEntries where
  | nil : PlanEntries
  | cons : String → PlanVal → PlanEntries → PlanEntries
end

mutual
/-- Modelled from the spec: the replacing scan of the function validator
(`scan.scan_service_template(plan, handler, replace=True)` with the handler
that turns every leaf parsing as a `get_property` function — decided by the
predicate `isGetProperty`, standing for `functions.parse` — into a function
instance carrying the raw leaf). -/
def replaceFunctionsPass (isGetProperty : Val → Bool) : PlanVal → PlanVal
  | .raw v => if isGetProperty v then .inst v else .raw v
  | .inst v => .inst v
  | .node entries => .node (replaceFunctionsEntries isGetProperty entries)
/-- The replacing scan on entry lists. -/
def replaceFunctionsEntries (isGetProperty : Val → Bool) : PlanEntries → PlanEntries
  | .nil => .nil
  | .cons key value rest =>
    .cons key (replaceFunctionsPass isGetProperty value)
      (replaceFunctionsEntries isGetProperty rest)
end

mutual
/-- Modelled from the spec: the restoring scan of the function validator
(`scan.scan_service_template(plan, replace_with_raw_function, replace=True)`),
which turns every function instance back into its raw original leaf. -/
def restoreRawPass : PlanVal → PlanVal
  | .raw v => .raw v
  | .inst v => .raw v
  | .node entries => .node (restoreRawEntries entries)
/-- The restoring scan on entry lists. -/
def restoreRawEntries : PlanEntries → PlanEntries
  | .nil => .nil
  | .cons key value rest => .cons key (restoreRawPass value) (restoreRawEntries rest)
end

mutual
/-- No function-instance object occurs anywhere in the plan tree. -/
def noFunctionInstances : PlanVal → Bool
  | .raw _ => true
  | .inst _ => false
  | .node entries => noFunctionInstancesEntries entries
/-- No function-instance object occurs anywhere in the entry list. -/
def noFunctionInstancesEntries : PlanEntries → Bool
  | .nil => true
  | .cons _ value rest => noFunctionInstances value && noFunctionInstancesEntries rest
end

mutual
/-- Restoring after replacing gives back any instance-free plan value. -/
theorem restoreReplacePlanVal (isGetProperty : Val → Bool) :
    (t : PlanVal) → noFunctionInstances t = true →
    restoreRawPass (replaceFunctionsPass isGetProperty t) = t
  | .raw v, _ => by
    simp only [replaceFunctionsPass]
    by_cases h : isGetProperty v = true
    · simp [h, restoreRawPass]
    · simp [h, restoreRawPass]
  | .node entries, h => by
    simp only [replaceFunctionsPass, restoreRawPass, PlanVal.node.injEq]
    exact restoreReplacePlanEntries isGetProperty entries
      (by simpa [noFunctionInstances] using h)
/-- Restoring after replacing gives back any instance-free entry list. -/
theorem restoreReplacePlanEntries (isGetProperty : Val → Bool) :
    (es : PlanEntries) → noFunctionInstancesEntries es = true →
    restoreRawEntries (replaceFunctionsEntries isGetProperty es) = es
  | .nil, _ => rfl
  | .cons key value rest, h => by
    have hv : noFunctionInstances value = true := by
      simp [noFunctionInstancesEntries, Bool.and_eq_true] at h
      exact h.1
    have hr : noFunctionInstancesEntries rest = true := by
      simp [noFunctionInstancesEntries, Bool.and_eq_true] at h
      exact h.2
    simp only [replaceFunctionsEntries, restoreRawEntries]
    rw [restoreReplacePlanVal isGetProperty value hv,
        restoreReplacePlanEntries isGetProperty rest hr]
end

mutual
/-- The restoring pass leaves no function instance in any plan value. -/
theorem restoreRawPassNoInstances :
    (t : PlanVal) → noFunctionInstances (restoreRawPass t) = true
  | .raw _ => rfl
  | .inst _ => rfl
  | .node entries => by
    simpa [restoreRawPass, noFunctionInstances] using
      restoreRawEntriesNoInstances entries
/-- The restoring pass leaves no function instance in any entry list. -/
theorem restoreRawEntriesNoInstances :
    (es : PlanEntries) → noFunctionInstancesEntries (restoreRawEntries es) = true
  | .nil => rfl
  | .cons _ value rest => by
    simp [restoreRawEntries, noFunctionInstancesEntries,
          restoreRawPassNoInstances value, restoreRawEntriesNoInstances rest]
end

/-- C7: for every plan on which the function validator completes, the
validator is a round trip — every leaf it replaced by a function instance is
restored to its raw original form, so re-scanning the resulting plan finds no
function-instance objects and the plan equals the input plan leaf for leaf. -/
theorem validateFunctionsRoundTrip (isGetProperty : Val → Bool) (plan : PlanVal)
    (h : noFunctionInstances plan = true) :
    restoreRawPass (replaceFunctionsPass isGetProperty plan) = plan ∧
    noFunctionInstances
      (restoreRawPass (replaceFunctionsPass isGetProperty plan)) = true :=
  ⟨restoreReplacePlanVal isGetProperty plan h,
   restoreRawPassNoInstances (replaceFunctionsPass isGetProperty plan)⟩

/-- Witness for C7 at a concrete two-leaf plan whose first leaf parses as a
`get_property` function. -/
theorem validateFunctionsRoundTripWitness :
    noFunctionInstances
      (PlanVal.node (.cons "input" (.raw (.str "fn")) (.cons "other"
        (.raw .null) .nil))) = true ∧
    (restoreRawPass (replaceFunctionsPass (fun v => Val.beq v (.str "fn"))
        (PlanVal.node (.cons "input" (.raw (.str "fn")) (.cons "other"
          (.raw .null) .nil)))) =
      PlanVal.node (.cons "input" (.raw (.str "fn")) (.cons "other"
        (.raw .null) .nil)) ∧
     noFunctionInstances (restoreRawPass (replaceFunctionsPass
        (fun v => Val.beq v (.str "fn"))
        (PlanVal.node (.cons "input" (.raw (.str "fn")) (.cons "other"
          (.raw .null) .nil))))) = true) :=
  ⟨rfl, validateFunctionsRoundTrip (fun v => Val.beq v (.str "fn"))
    (PlanVal.node (.cons "input" (.raw (.str "fn")) (.cons "other"
      (.raw .null) .nil))) rfl⟩

/-- C8: a workflow declared with an empty-string mapping (or with a spec
dictionary lacking the `mapping` field) is processed successfully into an
operation struct whose plugin is the empty string, and the subsequent
`workflow_plugins_to_install` computation then looks the empty string up in
the declared-plugins dictionary and fails with an unstructured `KeyError`
rather than a format or logic error. -/
theorem workflowEmptyMappingKeyError :
    processWorkflows [("wf", OpContent.str "")] [("p", ())] none
        (fun _ => false) =
      .ok [("wf", operationStruct "" "" (some []) "parameters")] ∧
    processWorkflows [("wf", OpContent.spec none none)] [("p", ())] none
        (fun _ => false) =
      .ok [("wf", operationStruct "" "" (some []) "parameters")] ∧
    createPlanWorkflowPlugins
        [("wf", operationStruct "" "" (some []) "parameters")] [("p", ())] =
      .error (.keyError "") :=
  ⟨rfl, rfl, rfl⟩

/-- C9: the implementations dictionary is consumed only on success — whenever
`_get_implementation` raises (ambiguity or derivation failure) or finds no
candidate, the dictionary is left exactly as it was; only a successfully
applied implementation (a candidate entry of the dictionary) is deleted. -/
theorem getImplementationMutationDiscipline {α : Type} (typeName : String)
    (impls : List (String × α)) (types : List (String × DslType))
    (errCodeAmbig errCodeDerive : Nat) (candidateFunc : α → Bool)
    (implType : α → String) (fuel : Nat) :
    (∀ e, (getImplementation typeName impls types errCodeAmbig errCodeDerive
        candidateFunc implType fuel).1 = .error e →
      (getImplementation typeName impls types errCodeAmbig errCodeDerive
        candidateFunc implType fuel).2 = impls) ∧
    ((getImplementation typeName impls types errCodeAmbig errCodeDerive
        candidateFunc implType fuel).1 = .ok none →
      (getImplementation typeName impls types errCodeAmbig errCodeDerive
        candidateFunc implType fuel).2 = impls) ∧
    (∀ impl, (getImplementation typeName impls types errCodeAmbig errCodeDerive
        candidateFunc implType fuel).1 = .ok (some impl) →
      ∃ implName, (implName, impl) ∈ impls ∧ candidateFunc impl = true ∧
        (getImplementation typeName impls types errCodeAmbig errCodeDerive
          candidateFunc implType fuel).2 = dictErase impls implName) := by
  by_cases hlen : (impls.filter (fun p => candidateFunc p.2)).length > 1
  · refine ⟨fun e _ => ?_, fun h => ?_, fun impl h => ?_⟩
    · simp [getImplementation, hlen]
    · simp [getImplementation, hlen] at h
    · simp [getImplementation, hlen] at h
  · rcases hfil : impls.filter (fun p => candidateFunc p.2) with _ | ⟨⟨implName, impl⟩, t⟩
    · refine ⟨fun e h => ?_, fun _ => ?_, fun impl h => ?_⟩
      · simp [getImplementation, hlen, hfil] at h
      · simp [getImplementation, hlen, hfil]
      · simp [getImplementation, hlen, hfil] at h
    · have ht : t = [] := by
        rw [hfil] at hlen
        simp only [List.length_cons, gt_iff_lt, not_lt] at hlen
        exact List.length_eq_zero.mp (by omega)
      subst ht
      have hmem : (implName, impl) ∈ impls.filter (fun p => candidateFunc p.2) := by
        rw [hfil]; exact List.mem_cons_self _ _
      have hm : (implName, impl) ∈ impls := List.mem_of_mem_filter hmem
      have hcand : candidateFunc impl = true := by
        have := List.of_mem_filter hmem
        simpa using this
      cases hder : isDerivedFrom fuel (implType impl) types typeName with
      | none =>
        refine ⟨fun e _ => ?_, fun h => ?_, fun impl' h => ?_⟩
        · simp [getImplementation, hlen, hfil, hder]
        · simp [getImplementation, hlen, hfil, hder] at h
        · simp [getImplementation, hlen, hfil, hder] at h
      | some b =>
        cases b with
        | false =>
          refine ⟨fun e _ => ?_, fun h => ?_, fun impl' h => ?_⟩
          · simp [getImplementation, hlen, hfil, hder]
          · simp [getImplementation, hlen, hfil, hder] at h
          · simp [getImplementation, hlen, hfil, hder] at h
        | true =>
          refine ⟨fun e h => ?_, fun h => ?_, fun impl' h => ?_⟩
          · simp [getImplementation, hlen, hfil, hder] at h
          · simp [getImplementation, hlen, hfil, hder] at h
          · have himpl : impl = impl' := by
              simpa [getImplementation, hlen, hfil, hder] using h
            subst himpl
            exact ⟨implName, hm, hcand, by simp [getImplementation, hlen, hfil, hder]⟩

/-- Witness for C9: two candidate implementations make the lookup fail as
ambiguous, and the implementations dictionary is returned untouched. -/
theorem getImplementationMutationDisciplineWitness :
    (getImplementation "t" [("i1", "x"), ("i2", "y")] [] 103 102
      (fun _ => true) (fun s => s) 0).1 = .error (.logic 103) ∧
    (getImplementation "t" [("i1", "x"), ("i2", "y")] [] 103 102
      (fun _ => true) (fun s => s) 0).2 = [("i1", "x"), ("i2", "y")] :=
  ⟨rfl, (getImplementationMutationDiscipline "t" [("i1", "x"), ("i2", "y")] []
    103 102 (fun _ => true) (fun s => s) 0).1 (.logic 103) rfl⟩

/-- A successful dictionary lookup comes from an entry of the dictionary. -/
theorem dictGetMem {β : Type} {d : List (String × β)} {k : String} {v : β}
    (h : dictGet d k = some v) : (k, v) ∈ d := by
  induction d with
  | nil => simp [dictGet] at h
  | cons p rest ih =>
    obtain ⟨k', v'⟩ := p
    by_cases hk : k' = k
    · subst hk
      simp [dictGet] at h
      subst h
      exact List.mem_cons_self _ _
    · simp [dictGet, hk] at h
      exact List.mem_cons_of_mem _ (ih h)

/-- C10: on a types dictionary whose `derived_from` chains are acyclic —
witnessed by a rank function that decreases along every `derived_from` link
into a declared parent — the recursive hierarchy computations terminate:
`_create_type_hierarchy` returns a nonempty root-first list ending in the
queried type name whose head is a type with no `derived_from`, and
`_is_derived_from` returns a Boolean, once the fuel exceeds the rank of the
queried type (the functions themselves perform no cycle detection, so
acyclicity is exactly the precondition for totality of the embedding). -/
theorem typeHierarchyTerminates (types : List (String × DslType))
    (rank : String → Nat)
    (hrank : ∀ p ∈ types, ∀ q, p.2.derived_from = some q →
      rank q < rank p.1 ∧ (dictGet types q).isSome = true)
    (typeName : String) (hmem : (dictGet types typeName).isSome = true)
    (fuel : Nat) (hfuel : rank typeName < fuel) :
    (∃ hierarchy root rest,
      createTypeHierarchy fuel typeName types = some hierarchy ∧
      hierarchy = root :: rest ∧ hierarchy.getLast? = some typeName ∧
      ∃ rootType, dictGet types root = some rootType ∧
        rootType.derived_from = none) ∧
    (∀ target, ∃ b, isDerivedFrom fuel typeName types target = some b) := by
  induction fuel generalizing typeName with
  | zero => omega
  | succ fuel ih =>
    obtain ⟨dt, hdt⟩ := Option.isSome_iff_exists.mp hmem
    cases hder : dt.derived_from with
    | none =>
      constructor
      · exact ⟨[typeName], typeName, [],
          by simp [createTypeHierarchy, hdt, hder], rfl, by simp,
          dt, hdt, hder⟩
      · intro target
        by_cases he : typeName = target
        · exact ⟨true, by simp [isDerivedFrom, he]⟩
        · exact ⟨false, by simp [isDerivedFrom, he, hdt, hder]⟩
    | some parent =>
      have hp := hrank (typeName, dt) (dictGetMem hdt) parent hder
      have hp1 : rank parent < rank typeName := by simpa using hp.1
      have hfp : rank parent < fuel := by omega
      have ihp := ih parent hp.2 hfp
      constructor
      · obtain ⟨hierarchy, root, rest, hh, hcons, _, rootEx⟩ := ihp.1
        refine ⟨hierarchy ++ [typeName], root, rest ++ [typeName], ?_, ?_, ?_,
          rootEx⟩
        · simp [createTypeHierarchy, hdt, hder, hh]
        · simp [hcons]
        · simp [List.getLast?_concat]
      · intro target
        by_cases he : typeName = target
        · exact ⟨true, by simp [isDerivedFrom, he]⟩
        · obtain ⟨b, hb⟩ := ihp.2 target
          exact ⟨b, by simp [isDerivedFrom, he, hdt, hder, hb]⟩

/-- Witness for C10 on a two-type dictionary with a one-step chain. -/
theorem typeHierarchyTerminatesWitness :
    (∃ hierarchy root rest,
      createTypeHierarchy 2 "b"
        [("a", (⟨none, []⟩ : DslType)), ("b", ⟨some "a", []⟩)] = some hierarchy ∧
      hierarchy = root :: rest ∧ hierarchy.getLast? = some "b" ∧
      ∃ rootType, dictGet [("a", (⟨none, []⟩ : DslType)), ("b", ⟨some "a", []⟩)]
          root = some rootType ∧ rootType.derived_from = none) ∧
    (∀ target, ∃ b, isDerivedFrom 2 "b"
      [("a", (⟨none, []⟩ : DslType)), ("b", ⟨some "a", []⟩)] target = some b) := by
  refine typeHierarchyTerminates
    [("a", (⟨none, []⟩ : DslType)), ("b", ⟨some "a", []⟩)]
    (fun t => if t = "b" then 1 else 0) ?_ "b" (by decide) 2 (by decide)
  intro p hp q hq
  simp only [List.mem_cons, List.not_mem_nil, or_false] at hp
  rcases hp with rfl | rfl
  · simp at hq
  · simp only at hq
    cases hq
    exact ⟨by decide, by decide⟩

/-- The relationship produced by the base assignment does not depend on the
accumulator, and the accumulator grows by exactly the contained-in types. -/
theorem addBaseSpec (cont conn dep : List String) (r : ProcessedRel)
    (acc : List String) :
    (addBaseTypeToRelationship cont conn dep r acc).1 =
      (addBaseTypeToRelationship cont conn dep r []).1 ∧
    (addBaseTypeToRelationship cont conn dep r acc).2 =
      acc ++ (if r.type ∈ cont then [r.type] else []) := by
  unfold addBaseTypeToRelationship
  by_cases h1 : r.type ∈ cont
  · simp [h1]
  · by_cases h2 : r.type ∈ conn
    · simp [h1, h2]
    · by_cases h3 : r.type ∈ dep <;> simp [h1, h2, h3]

/-- The base-assignment fold of `postProcessNodeRelationshipBases`, solved:
the processed list is the pointwise base assignment and the accumulator
collects the contained-in relationship types in order. -/
theorem basesFoldSpec (cont conn dep : List String) :
    ∀ (rels : List ProcessedRel) (accList : List ProcessedRel)
      (accCont : List String),
    List.foldl
      (fun (acc : List ProcessedRel × List String) relationship =>
        let step := addBaseTypeToRelationship cont conn dep relationship acc.2
        (acc.1 ++ [step.1], step.2))
      (accList, accCont) rels =
    (accList ++ rels.map
       (fun r => (addBaseTypeToRelationship cont conn dep r []).1),
     accCont ++ (rels.filter (fun r => decide (r.type ∈ cont))).map
       (fun r => r.type)) := by
  intro rels
  induction rels with
  | nil => intro accList accCont; simp
  | cons r rest ih =>
    intro accList accCont
    rw [List.foldl_cons]
    show List.foldl _
      (accList ++ [(addBaseTypeToRelationship cont conn dep r accCont).1],
       (addBaseTypeToRelationship cont conn dep r accCont).2) rest = _
    rcases addBaseSpec cont conn dep r accCont with ⟨h1, h2⟩
    rw [h1, h2, ih]
    by_cases hc : r.type ∈ cont
    · simp [hc, List.filter_cons]
    · simp [hc, List.filter_cons]

/-- C3: post-processing of one node assigns every relationship a base by
matching its type against the contained-in, connected-to and depends-on
descendant families in that order (else undefined); more than one contained-in
relationship makes it fail with logic error 112 carrying the offending
relationship types, so in the success case the node has at most one
relationship with base contained. -/
theorem nodeRelationshipBaseClassification (cont conn dep : List String)
    (relationships : List ProcessedRel) :
    (∀ rels', postProcessNodeRelationshipBases cont conn dep relationships =
        .ok rels' →
      rels' = relationships.map
        (fun r => (addBaseTypeToRelationship cont conn dep r []).1) ∧
      (rels'.filter (fun r => decide (r.base = some "contained"))).length ≤ 1) ∧
    (∀ (r : ProcessedRel) (acc : List String),
      ((addBaseTypeToRelationship cont conn dep r acc).1).base =
        some (if r.type ∈ cont then "contained"
          else if r.type ∈ conn then "connected"
          else if r.type ∈ dep then "depends" else "undefined")) ∧
    ((relationships.filter (fun r => decide (r.type ∈ cont))).length > 1 →
      postProcessNodeRelationshipBases cont conn dep relationships =
        .error (112, (relationships.filter
          (fun r => decide (r.type ∈ cont))).map (fun r => r.type))) := by
  have hbase : ∀ (r : ProcessedRel) (acc : List String),
      ((addBaseTypeToRelationship cont conn dep r acc).1).base =
        some (if r.type ∈ cont then "contained"
          else if r.type ∈ conn then "connected"
          else if r.type ∈ dep then "depends" else "undefined") := by
    intro r acc
    unfold addBaseTypeToRelationship
    by_cases h1 : r.type ∈ cont
    · simp [h1]
    · by_cases h2 : r.type ∈ conn
      · simp [h1, h2]
      · by_cases h3 : r.type ∈ dep <;> simp [h1, h2, h3]
  refine ⟨fun rels' hok => ?_, hbase, fun hgt => ?_⟩
  · rw [postProcessNodeRelationshipBases, basesFoldSpec] at hok
    simp only [List.nil_append, List.length_map, gt_iff_lt] at hok
    by_cases hlen :
        1 < (relationships.filter (fun r => decide (r.type ∈ cont))).length
    · rw [if_pos hlen] at hok
      exact absurd hok (by simp)
    · rw [if_neg hlen] at hok
      have hok' : relationships.map
          (fun r => (addBaseTypeToRelationship cont conn dep r []).1) = rels' := by
        simpa using hok
      subst hok'
      constructor
      · rfl
      · rw [List.filter_map, List.length_map]
        have hfc : (relationships.filter
            ((fun r => decide (r.base = some "contained")) ∘
              (fun r => (addBaseTypeToRelationship cont conn dep r []).1))) =
            relationships.filter (fun r => decide (r.type ∈ cont)) := by
          apply List.filter_congr
          intro r _
          simp only [Function.comp_apply, hbase r []]
          by_cases hc : r.type ∈ cont
          · simp [hc]
          · by_cases h2 : r.type ∈ conn
            · simp [hc, h2]
            · by_cases h3 : r.type ∈ dep <;> simp [hc, h2, h3]
        rw [hfc]
        omega
  · rw [postProcessNodeRelationshipBases, basesFoldSpec]
    simp only [List.nil_append, List.length_map, gt_iff_lt]
    rw [if_pos (by simpa using hgt)]

/-- Witness for C3 on a node with a single contained-in relationship. -/
theorem nodeRelationshipBaseClassificationWitness :
    postProcessNodeRelationshipBases ["c"] ["n"] ["d"]
        [⟨"c", "tgt", "reachable", [], [], [], none⟩] =
      .ok [⟨"c", "tgt", "reachable", [], [], [], some "contained"⟩] ∧
    (([⟨"c", "tgt", "reachable", [], [], [], some "contained"⟩] :
        List ProcessedRel).filter
      (fun r => decide (r.base = some "contained"))).length ≤ 1 :=
  ⟨rfl, ((nodeRelationshipBaseClassification ["c"] ["n"] ["d"]
    [⟨"c", "tgt", "reachable", [], [], [], none⟩]).1
    [⟨"c", "tgt", "reachable", [], [], [], some "contained"⟩] rfl).2⟩

/-- A successful host-id extraction either self-hosts a host-typed node or
names a host-typed node reachable through the node map. -/
theorem extractSomeHost (hcons : ∀ s m, nodeMap s = some m → m.id = s) :
    ∀ (fuel : Nat) (hostTypes containedTypes : List String) (n : PNode)
      (h : String),
    extractNodeHostId fuel nodeMap hostTypes containedTypes n = some h →
    (n.type ∈ hostTypes ∧ h = n.id) ∨
    (∃ m, nodeMap h = some m ∧ m.type ∈ hostTypes) := by
  intro fuel
  induction fuel with
  | zero => intro _ _ _ _ hx; simp [extractNodeHostId] at hx
  | succ fuel ih =>
    intro hostTypes containedTypes n h hx
    rw [extractNodeHostId] at hx
    by_cases hht : n.type ∈ hostTypes
    · rw [if_pos hht] at hx
      have : n.id = h := by simpa using hx
      exact Or.inl ⟨hht, this.symm⟩
    · rw [if_neg hht] at hx
      cases hrels : n.relationships with
      | none =>
        simp only [hrels] at hx
        exact Option.noConfusion hx
      | some rels =>
        simp only [hrels] at hx
        cases hfind : rels.find? (fun r => decide (r.type ∈ containedTypes)) with
        | none =>
          simp only [hfind] at hx
          exact Option.noConfusion hx
        | some rel =>
          simp only [hfind] at hx
          cases hmap : nodeMap rel.target_id with
          | none =>
            simp only [hmap] at hx
            exact Option.noConfusion hx
          | some target =>
            simp only [hmap] at hx
            rcases ih hostTypes containedTypes target h hx with ⟨h1, h2⟩ | h1
            · subst h2
              have hm : nodeMap target.id = some target := by
                rw [hcons rel.target_id target hmap]
                exact hmap
              exact Or.inr ⟨target, hm, h1⟩
            · exact Or.inr h1

/-- C2: a fully processed node has `host_id` equal to its own id exactly when
its type lies in the host-type descendant family; otherwise the extraction
follows the first contained-in relationship to its target (one fuel step
down), yields nothing when no contained-in relationship exists, and the
post-processing step sets the `host_id` key accordingly; membership in a
family-descendant set is derivation from the family root. -/
theorem nodeHostIdDerivation (fuel : Nat) (nodeMap : String → Option PNode)
    (hostTypes containedTypes : List String) (n : PNode)
    (hcons : ∀ s m, nodeMap s = some m → m.id = s)
    (hself : nodeMap n.id = some n) (hfuel : 0 < fuel) :
    (extractNodeHostId fuel nodeMap hostTypes containedTypes n = some n.id ↔
      n.type ∈ hostTypes) ∧
    (n.type ∉ hostTypes → ∀ rels rel target, n.relationships = some rels →
      rels.find? (fun r => decide (r.type ∈ containedTypes)) = some rel →
      nodeMap rel.target_id = some target →
      extractNodeHostId fuel nodeMap hostTypes containedTypes n =
        extractNodeHostId (fuel - 1) nodeMap hostTypes containedTypes target) ∧
    (n.type ∉ hostTypes →
      (n.relationships = none ∨ ∃ rels, n.relationships = some rels ∧
        rels.find? (fun r => decide (r.type ∈ containedTypes)) = none) →
      extractNodeHostId fuel nodeMap hostTypes containedTypes n = none) ∧
    (n.host_id = none → n.id ≠ "" →
      ((setNodeHostId fuel nodeMap hostTypes containedTypes n).host_id =
        some n.id ↔ n.type ∈ hostTypes)) ∧
    (∀ fuel' types root t, t ∈ buildFamilyDescendantsSet fuel' types root ↔
      (t ∈ dictKeys types ∧ isDerivedFrom fuel' t types root = some true)) := by
  obtain ⟨k, rfl⟩ : ∃ k, fuel = k + 1 := ⟨fuel - 1, by omega⟩
  have hiff : extractNodeHostId (k + 1) nodeMap hostTypes containedTypes n =
      some n.id ↔ n.type ∈ hostTypes := by
    constructor
    · intro hx
      rcases extractSomeHost hcons (k + 1) hostTypes containedTypes n n.id hx
        with ⟨h1, _⟩ | ⟨m, hm, hmt⟩
      · exact h1
      · rw [hself] at hm
        cases hm
        exact hmt
    · intro hht
      rw [extractNodeHostId, if_pos hht]
  refine ⟨hiff, fun hnot rels rel target h1 h2 h3 => ?_, fun hnot hno => ?_,
    fun hh hne => ?_, fun fuel' types root t => ?_⟩
  · rw [extractNodeHostId, if_neg hnot]
    simp only [h1, h2, h3, Nat.add_sub_cancel]
  · rcases hno with h1 | ⟨rels, h1, h2⟩
    · rw [extractNodeHostId, if_neg hnot]
      simp only [h1]
    · rw [extractNodeHostId, if_neg hnot]
      simp only [h1, h2]
  · rw [setNodeHostId]
    cases hx : extractNodeHostId (k + 1) nodeMap hostTypes containedTypes n with
    | none =>
      dsimp only
      rw [hh]
      constructor
      · intro hcontra; exact Option.noConfusion hcontra
      · intro hht
        rw [hiff.mpr hht] at hx
        exact Option.noConfusion hx
    | some h =>
      dsimp only
      by_cases hne' : h = ""
      · subst hne'
        rw [if_pos rfl, hh]
        constructor
        · intro hcontra; exact Option.noConfusion hcontra
        · intro hht
          rw [hiff.mpr hht] at hx
          have hid : n.id = "" := by simpa using hx
          exact absurd hid hne
      · rw [if_neg hne']
        dsimp only
        constructor
        · intro hsome
          have heq : h = n.id := by simpa using hsome
          subst heq
          exact hiff.mp hx
        · intro hht
          rw [hiff.mpr hht] at hx
          have heq : n.id = h := by simpa using hx
          rw [heq]
  · simp [buildFamilyDescendantsSet, List.mem_filter]

/-- Witness for C2: a single host-typed node self-hosts. -/
theorem nodeHostIdDerivationWitness :
    extractNodeHostId 1
        (fun s => if s = "h" then some ⟨"h", "host.type", none, none⟩ else none)
        ["host.type"] [] ⟨"h", "host.type", none, none⟩ = some "h" ↔
      "host.type" ∈ ["host.type"] :=
  (nodeHostIdDerivation 1
    (fun s => if s = "h" then some ⟨"h", "host.type", none, none⟩ else none)
    ["host.type"] [] ⟨"h", "host.type", none, none⟩
    (by
      intro s m hm
      by_cases hs : s = "h"
      · subst hs
        simp at hm
        rw [← hm]
      · simp [hs] at hm)
    (by simp) (by decide)).1

/-- A successfully processed relationship instance targets a declared node
other than its own node and is in the reachable state. -/
theorem processOneRelOk {nodeName : String} {nodeNamesSet : List String}
    {topLevelRelationships : List (String × DslType)}
    {mergeIfaces : DslType → RawRel → IfaceDict × IfaceDict}
    {mergeProps : Props → Props → Props → Except PErr Props} {fuel : Nat}
    {impls : List (String × RelImpl)} {r : RawRel} {pr : ProcessedRel}
    {implsOut : List (String × RelImpl)}
    (h : processOneNodeRelationship nodeName nodeNamesSet topLevelRelationships
      mergeIfaces mergeProps fuel impls r = (.ok pr, implsOut)) :
    pr.target_id ∈ nodeNamesSet ∧ pr.target_id ≠ nodeName ∧
    pr.state = "reachable" := by
  rw [processOneNodeRelationship] at h
  rcases hg : getRelationshipImplementationIfExists nodeName r.target impls
      r.type topLevelRelationships fuel with ⟨gres, gout⟩
  rw [hg] at h
  cases gres with
  | error e => simp at h
  | ok tp =>
    obtain ⟨t', props⟩ := tp
    dsimp only at h
    by_cases h25 : r.target ∉ nodeNamesSet
    · rw [if_pos h25] at h
      simp at h
    · rw [if_neg h25] at h
      by_cases h23 : r.target = nodeName
      · rw [if_pos h23] at h
        simp at h
      · rw [if_neg h23] at h
        cases hget : dictGet topLevelRelationships t' with
        | none =>
          rw [hget] at h
          simp at h
        | some rct =>
          rw [hget] at h
          dsimp only at h
          cases hmp : mergeProps (r.properties.getD []) props rct.properties with
          | error e =>
            rw [hmp] at h
            simp at h
          | ok mprops =>
            rw [hmp] at h
            dsimp only at h
            have h1 := congrArg Prod.fst h
            dsimp only at h1
            injection h1 with hbig
            subst hbig
            exact ⟨not_not.mp h25, h23, rfl⟩

/-- The processed relationships accumulated by a successful run of the
relationship loop all satisfy the target/state invariant. -/
theorem processNodeRelationshipsLoopInvariant {nodeName : String}
    {nodeNamesSet : List String}
    {topLevelRelationships : List (String × DslType)}
    {mergeIfaces : DslType → RawRel → IfaceDict × IfaceDict}
    {mergeProps : Props → Props → Props → Except PErr Props} {fuel : Nat} :
    ∀ (rels : List RawRel) (impls : List (String × RelImpl))
      (acc prels : List ProcessedRel) (implsOut : List (String × RelImpl)),
    processNodeRelationshipsLoop nodeName nodeNamesSet topLevelRelationships
      mergeIfaces mergeProps fuel impls rels acc = (.ok prels, implsOut) →
    (∀ pr ∈ acc, pr.target_id ∈ nodeNamesSet ∧ pr.target_id ≠ nodeName ∧
      pr.state = "reachable") →
    ∀ pr ∈ prels, pr.target_id ∈ nodeNamesSet ∧ pr.target_id ≠ nodeName ∧
      pr.state = "reachable" := by
  intro rels
  induction rels with
  | nil =>
    intro impls acc prels implsOut hloop hacc
    rw [processNodeRelationshipsLoop] at hloop
    have : acc = prels := by
      have := congrArg Prod.fst hloop
      simpa using this
    subst this
    exact hacc
  | cons r rest ih =>
    intro impls acc prels implsOut hloop hacc
    rw [processNodeRelationshipsLoop] at hloop
    rcases hstep : processOneNodeRelationship nodeName nodeNamesSet
        topLevelRelationships mergeIfaces mergeProps fuel impls r with
      ⟨sres, sout⟩
    rw [hstep] at hloop
    cases sres with
    | error e => simp at hloop
    | ok pr =>
      refine ih sout (acc ++ [pr]) prels implsOut hloop ?_
      intro pr' hpr'
      rcases List.mem_append.mp hpr' with hmem | hmem
      · exact hacc pr' hmem
      · rw [List.mem_singleton.mp hmem]
        exact processOneRelOk hstep

/-- C4: processing the relationship instances of a node template raises logic
error 25 when the (possibly implementation-overridden) relationship targets an
undeclared node, logic error 23 when it targets its own node, and logic error
26 when its type is not a declared relationship type; every successfully
processed relationship carries its former `target` as `target_id` — an
existing node name different from the owning node — with state reachable. -/
theorem processNodeRelationshipValidation (nodeName : String)
    (nodeNamesSet : List String)
    (topLevelRelationships : List (String × DslType))
    (mergeIfaces : DslType → RawRel → IfaceDict × IfaceDict)
    (mergeProps : Props → Props → Props → Except PErr Props) (fuel : Nat) :
    (∀ (impls : List (String × RelImpl)) (r : RawRel) (t' : String)
       (props : Props) (implsOut : List (String × RelImpl)),
      getRelationshipImplementationIfExists nodeName r.target impls r.type
          topLevelRelationships fuel = (.ok (t', props), implsOut) →
      (r.target ∉ nodeNamesSet →
        processOneNodeRelationship nodeName nodeNamesSet topLevelRelationships
          mergeIfaces mergeProps fuel impls r = (.error (.logic 25), implsOut)) ∧
      (r.target ∈ nodeNamesSet → r.target = nodeName →
        processOneNodeRelationship nodeName nodeNamesSet topLevelRelationships
          mergeIfaces mergeProps fuel impls r = (.error (.logic 23), implsOut)) ∧
      (r.target ∈ nodeNamesSet → r.target ≠ nodeName →
        dictGet topLevelRelationships t' = none →
        processOneNodeRelationship nodeName nodeNamesSet topLevelRelationships
          mergeIfaces mergeProps fuel impls r = (.error (.logic 26), implsOut))) ∧
    (∀ (relImpls : List (String × RelImpl)) (rels : List RawRel)
       (prels : List ProcessedRel) (implsOut : List (String × RelImpl)),
      processNodeRelationships nodeName nodeNamesSet topLevelRelationships
          mergeIfaces mergeProps fuel relImpls (some rels) =
        (.ok (some prels), implsOut) →
      ∀ pr ∈ prels, pr.target_id ∈ nodeNamesSet ∧ pr.target_id ≠ nodeName ∧
        pr.state = "reachable") := by
  constructor
  · intro impls r t' props implsOut hg
    refine ⟨fun h25 => ?_, fun hin h23 => ?_, fun hin hne h26 => ?_⟩
    · rw [processOneNodeRelationship, hg]
      dsimp only
      rw [if_pos h25]
    · rw [processOneNodeRelationship, hg]
      dsimp only
      rw [if_neg (not_not.mpr hin), if_pos h23]
    · rw [processOneNodeRelationship, hg]
      dsimp only
      rw [if_neg (not_not.mpr hin), if_neg hne, h26]
  · intro relImpls rels prels implsOut hproc
    rw [processNodeRelationships] at hproc
    rcases hloop : processNodeRelationshipsLoop nodeName nodeNamesSet
        topLevelRelationships mergeIfaces mergeProps fuel relImpls rels [] with
      ⟨lres, lout⟩
    rw [hloop] at hproc
    cases lres with
    | error e => simp at hproc
    | ok prels' =>
      have hpe : prels' = prels := by
        have h1 := congrArg Prod.fst hproc
        simpa using h1
      subst hpe
      exact processNodeRelationshipsLoopInvariant rels relImpls [] prels' lout
        hloop (by intro pr hpr; cases hpr)

/-- Witness for C4: with no implementations, a relationship whose target is
not a declared node name fails with logic error 25. -/
theorem processNodeRelationshipValidationWitness :
    processOneNodeRelationship "n" ["m"] [("t", ⟨none, []⟩)]
        (fun _ _ => ([], [])) (fun _ _ _ => .ok []) 1 []
        ⟨"t", "x", none, none, none⟩ = (.error (.logic 25), []) :=
  (((processNodeRelationshipValidation "n" ["m"] [("t", ⟨none, []⟩)]
    (fun _ _ => ([], [])) (fun _ _ _ => .ok []) 1).1 []
    ⟨"t", "x", none, none, none⟩ "t" [] [] rfl).1 (by decide))

/-- Lookup distributes over dictionary concatenation, preferring the left. -/
theorem dictGetAppend (a b : List (String × β)) (k : String) :
    dictGet (a ++ b) k =
      match dictGet a k with
      | some v => some v
      | none => dictGet b k := by
  induction a with
  | nil => simp [dictGet]
  | cons p rest ih =>
    obtain ⟨k', v'⟩ := p
    by_cases hk : k' = k
    · simp [dictGet, hk]
    · simp [dictGet, hk, ih]

/-- Deleting a key removes it from the dictionary. -/
theorem dictGetEraseSelf (d : List (String × β)) (k : String) :
    dictGet (dictErase d k) k = none := by
  induction d with
  | nil => simp [dictErase, dictGet]
  | cons p rest ih =>
    obtain ⟨k', v'⟩ := p
    by_cases hk : k' = k
    · simpa [dictErase, hk] using ih
    · simpa [dictErase, dictGet, hk] using ih

/-- `_merge_into_dict_or_throw_on_duplicate` succeeds exactly as the per-entry
union when the incoming entries are fresh and mutually distinct. -/
theorem mergeIntoDictOk (topLevelKey : String) (path : List String) :
    ∀ (fromDict toDict : List (String × Val)),
    (∀ q ∈ fromDict, dictContains toDict q.1 = false) →
    (fromDict.map (fun q => q.1)).Nodup →
    mergeIntoDictOrThrowOnDuplicate fromDict toDict topLevelKey path =
      .ok (toDict ++ fromDict) := by
  intro fromDict
  induction fromDict with
  | nil => intro toDict _ _; simp [mergeIntoDictOrThrowOnDuplicate]
  | cons q rest ih =>
    intro toDict hdisj hnodup
    obtain ⟨key, value⟩ := q
    rw [List.map_cons] at hnodup
    rcases List.nodup_cons.mp hnodup with ⟨hnm, htail⟩
    rw [mergeIntoDictOrThrowOnDuplicate]
    rw [if_neg (by simpa using hdisj (key, value) (List.mem_cons_self _ _))]
    rw [ih (toDict ++ [(key, value)]) ?_ htail]
    · simp
    · intro q hq
      rw [dictContains, dictGetAppend]
      have h1 : dictGet toDict q.1 = none := by
        cases hgq : dictGet toDict q.1 with
        | none => rfl
        | some v =>
          have hd := hdisj q (List.mem_cons_of_mem _ hq)
          rw [dictContains, hgq] at hd
          simp at hd
      rw [h1]
      have hne : key ≠ q.1 := by
        intro hc
        exact hnm (hc ▸ List.mem_map_of_mem (fun p => p.1) hq)
      simp [dictGet, hne]

/-- `_merge_into_dict_or_throw_on_duplicate` raises logic error 4 whenever
some incoming entry key is already present. -/
theorem mergeIntoDictDup (topLevelKey : String) (path : List String) :
    ∀ (fromDict toDict : List (String × Val)) (e : String),
    e ∈ fromDict.map (fun q => q.1) → dictContains toDict e = true →
    ∃ info, mergeIntoDictOrThrowOnDuplicate fromDict toDict topLevelKey path =
      .error (.logic 4 info) := by
  intro fromDict
  induction fromDict with
  | nil => intro toDict e he _; simp at he
  | cons q rest ih =>
    intro toDict e he hc
    obtain ⟨key, value⟩ := q
    rw [List.map_cons] at he
    rw [mergeIntoDictOrThrowOnDuplicate]
    by_cases hk : dictContains toDict key = true
    · exact ⟨topLevelKey :: (path ++ [key]), by rw [if_pos hk]⟩
    · rw [if_neg hk]
      rcases List.mem_cons.mp he with rfl | he'
      · exact absurd hc hk
      · refine ih (toDict ++ [(key, value)]) e he' ?_
        rw [dictContains, dictGetAppend]
        rw [dictContains] at hc
        obtain ⟨v, hv⟩ := Option.isSome_iff_exists.mp hc
        rw [hv]
        rfl

/-- No whitelisted merge key is the version key or the imports key. -/
theorem memWhitelistNe (k : String) (hk : k ∈ mergeNoOverride) :
    k ≠ versionKey ∧ k ≠ importsKey := by
  fin_cases hk <;> exact ⟨by decide, by decide⟩

/-- Counterexample to C5 as stated: an imported document repeating the
(matching) `tosca_definitions_version` key — a top-level key already present
in the combined document, neither `imports` nor whitelisted — is merged
without any error, not rejected with logic error 3: the version key is
checked and dropped before the per-key merge loop. -/
theorem importMergeVersionKeyCounterexample :
    mergeSingleImport (.str "cloudify_dsl_1_0")
        [("tosca_definitions_version", .str "cloudify_dsl_1_0")]
        [("tosca_definitions_version", .str "cloudify_dsl_1_0")] =
      .ok [("tosca_definitions_version", .str "cloudify_dsl_1_0")] ∧
    dictContains [("tosca_definitions_version", Val.str "cloudify_dsl_1_0")]
      "tosca_definitions_version" = true ∧
    "tosca_definitions_version" ∉ mergeNoOverride ∧
    "tosca_definitions_version" ≠ importsKey :=
  ⟨rfl, rfl, by decide, by decide⟩

/-- C5 (amended): in the per-key merge of one imported document, `imports`
is skipped; `tosca_definitions_version` is checked against the root version
(mismatch raises logic error 28) and dropped before the loop; a whitelisted
key is merged entry by entry, a duplicate entry raising logic error 4 with the
conflict path; any other already-present key raises logic error 3; and after
all imports are combined the `imports` key is absent from the result. -/
theorem importMergePolicy :
    (∀ (dslVersion : Val) (combined : List (String × Val)) (v : Val),
      mergeSingleImport dslVersion combined [(importsKey, v)] =
        .ok combined) ∧
    (∀ (dslVersion : Val) (combined imported : List (String × Val)) (v : Val),
      dictGet imported versionKey = some v → Val.beq v dslVersion = false →
      mergeSingleImport dslVersion combined imported =
        .error (.logic 28 [])) ∧
    (∀ (dslVersion : Val) (combined imported : List (String × Val)) (v : Val),
      dictGet imported versionKey = some v → Val.beq v dslVersion = true →
      mergeSingleImport dslVersion combined imported =
        mergeImportKeys combined (dictErase imported versionKey)) ∧
    (∀ (dslVersion : Val) (combined : List (String × Val)) (k : String)
       (toD fromD : List (String × Val)), k ∈ mergeNoOverride →
      dictGet combined k = some (.map toD) →
      (∀ q ∈ fromD, dictContains toD q.1 = false) →
      (fromD.map (fun q => q.1)).Nodup →
      mergeSingleImport dslVersion combined [(k, .map fromD)] =
        .ok (dictSet combined k (.map (toD ++ fromD)))) ∧
    (∀ (dslVersion : Val) (combined : List (String × Val)) (k : String)
       (toD fromD : List (String × Val)) (e : String), k ∈ mergeNoOverride →
      dictGet combined k = some (.map toD) →
      e ∈ fromD.map (fun q => q.1) → dictContains toD e = true →
      ∃ info, mergeSingleImport dslVersion combined [(k, .map fromD)] =
        .error (.logic 4 info)) ∧
    (∀ (dslVersion : Val) (combined : List (String × Val)) (k : String)
       (v : Val), k ∉ mergeNoOverride → k ≠ importsKey → k ≠ versionKey →
      dictContains combined k = true →
      mergeSingleImport dslVersion combined [(k, v)] =
        .error (.logic 3 [k])) ∧
    (∀ (parsedDsl : List (String × Val))
       (importedDocs : List (List (String × Val)))
       (out : List (String × Val)),
      combineImports parsedDsl importedDocs = .ok out →
      dictGet out importsKey = none) := by
  refine ⟨fun dslVersion combined v => ?_,
    fun dslVersion combined imported v hv hbeq => ?_,
    fun dslVersion combined imported v hv hbeq => ?_,
    fun dslVersion combined k toD fromD hk hc hdisj hnodup => ?_,
    fun dslVersion combined k toD fromD e hk hc he hdup => ?_,
    fun dslVersion combined k v hk hki hkv hc => ?_,
    fun parsedDsl importedDocs out hco => ?_⟩
  · simp [mergeSingleImport, mergeImportKeys, dictGet, versionKey, importsKey]
  · simp only [mergeSingleImport, hv, hbeq]
    rfl
  · simp only [mergeSingleImport, hv, hbeq]
    rfl
  · rcases memWhitelistNe k hk with ⟨hkv, hki⟩
    have h1 : dictGet [(k, Val.map fromD)] versionKey = none := by
      simp [dictGet, hkv]
    rw [mergeSingleImport, h1]
    dsimp only
    rw [mergeImportKeys, if_neg hki, hc]
    dsimp only
    rw [if_pos hk]
    rw [mergeIntoDictOk k [] fromD toD hdisj hnodup]
    dsimp only
    rw [mergeImportKeys]
  · rcases memWhitelistNe k hk with ⟨hkv, hki⟩
    obtain ⟨info, hinfo⟩ := mergeIntoDictDup k [] fromD toD e he hdup
    refine ⟨info, ?_⟩
    have h1 : dictGet [(k, Val.map fromD)] versionKey = none := by
      simp [dictGet, hkv]
    rw [mergeSingleImport, h1]
    dsimp only
    rw [mergeImportKeys, if_neg hki, hc]
    dsimp only
    rw [if_pos hk]
    rw [hinfo]
  · have h1 : dictGet [(k, v)] versionKey = none := by
      simp [dictGet, hkv]
    rw [mergeSingleImport, h1]
    dsimp only
    obtain ⟨ex, hex⟩ := Option.isSome_iff_exists.mp hc
    rw [mergeImportKeys, if_neg hki, hex]
    dsimp only
    rw [if_neg hk]
    rw [if_neg (by simp [mergeOneNestedLevelNoOverride])]
  · rw [combineImports] at hco
    cases hv : dictGet parsedDsl versionKey with
    | none => rw [hv] at hco; cases hco
    | some dslVersion =>
      rw [hv] at hco
      dsimp only at hco
      by_cases him : dictContains parsedDsl importsKey = true
      · rw [if_pos him] at hco
        cases hloop : combineImportsLoop dslVersion parsedDsl importedDocs with
        | error e => rw [hloop] at hco; cases hco
        | ok combined =>
          rw [hloop] at hco
          dsimp only at hco
          have hout : out = dictErase combined importsKey :=
            (Except.ok.inj hco).symm
          rw [hout]
          exact dictGetEraseSelf combined importsKey
      · rw [if_neg him] at hco
        have hout : out = parsedDsl := (Except.ok.inj hco).symm
        rw [hout]
        rw [dictContains] at him
        cases hgi : dictGet parsedDsl importsKey with
        | none => rfl
        | some v => rw [hgi] at him; simp at him

/-- Witness for C5: a non-whitelisted, already-present top-level key
(`outputs`) makes the merge of an import fail with logic error 3. -/
theorem importMergePolicyWitness :
    mergeSingleImport Val.null [("outputs", Val.null)]
      [("outputs", Val.null)] = .error (.logic 3 ["outputs"]) :=
  importMergePolicy.2.2.2.2.2.1 Val.null [("outputs", Val.null)] "outputs"
    Val.null (by decide) (by decide) (by decide) rfl

/-- The local consistency of the longest-prefix accumulator: an empty best is
at length zero, a recorded best has positive length, its own length, and
matches the mapping. -/
def accOk (m : String) (acc : Nat × Option String) : Prop :=
  (acc.2 = none → acc.1 = 0) ∧
  (∀ p, acc.2 = some p → acc.1 = p.length ∧ 0 < p.length ∧
    strStartsWith m (p ++ ".") = true)

/-- The solved longest-prefix fold: the accumulator stays consistent, bounds
every matching name seen, never shrinks, only moves to names of the list, and
remains empty only when every match seen has the empty name. -/
theorem foldBestSpec (m : String) :
    ∀ (names : List String) (acc : Nat × Option String), accOk m acc →
    accOk m (names.foldl (bestPluginStep m) acc) ∧
    (∀ q ∈ names, strStartsWith m (q ++ ".") = true →
      q.length ≤ (names.foldl (bestPluginStep m) acc).1) ∧
    acc.1 ≤ (names.foldl (bestPluginStep m) acc).1 ∧
    ((names.foldl (bestPluginStep m) acc).2 = acc.2 ∨
      ∃ p, (names.foldl (bestPluginStep m) acc).2 = some p ∧ p ∈ names) ∧
    ((names.foldl (bestPluginStep m) acc).2 = none →
      ∀ q ∈ names, strStartsWith m (q ++ ".") = true → q.length = 0) := by
  intro names
  induction names with
  | nil =>
    intro acc hacc
    refine ⟨hacc, ?_, le_refl _, Or.inl rfl, ?_⟩
    · intro q hq; cases hq
    · intro _ q hq; cases hq
  | cons pn rest ih =>
    intro acc hacc
    rw [List.foldl_cons]
    by_cases hs : strStartsWith m (pn ++ ".") = true
    · by_cases hgt : pn.length > acc.1
      · have hstep : bestPluginStep m acc pn = (pn.length, some pn) := by
          rw [bestPluginStep, if_pos hs, if_pos hgt]
        rw [hstep]
        have hacc' : accOk m (pn.length, some pn) := by
          constructor
          · intro hcontra; cases hcontra
          · intro p hp
            have hpe : pn = p := by simpa using hp
            subst hpe
            exact ⟨rfl, by omega, hs⟩
        rcases ih (pn.length, some pn) hacc' with ⟨h1, h2, h3, h4, h5⟩
        refine ⟨h1, ?_, ?_, ?_, ?_⟩
        · intro q hq hsq
          rcases List.mem_cons.mp hq with rfl | hq'
          · exact le_trans (by simp) h3
          · exact h2 q hq' hsq
        · omega
        · rcases h4 with h4 | ⟨p, hp, hpm⟩
          · exact Or.inr ⟨pn, h4, List.mem_cons_self _ _⟩
          · exact Or.inr ⟨p, hp, List.mem_cons_of_mem _ hpm⟩
        · intro hnone
          rcases h4 with h4 | ⟨p, hp, _⟩
          · rw [h4] at hnone; cases hnone
          · rw [hp] at hnone; cases hnone
      · have hstep : bestPluginStep m acc pn = acc := by
          rw [bestPluginStep, if_pos hs, if_neg hgt]
        rw [hstep]
        rcases ih acc hacc with ⟨h1, h2, h3, h4, h5⟩
        refine ⟨h1, ?_, h3, ?_, ?_⟩
        · intro q hq hsq
          rcases List.mem_cons.mp hq with rfl | hq'
          · omega
          · exact h2 q hq' hsq
        · rcases h4 with h4 | ⟨p, hp, hpm⟩
          · exact Or.inl h4
          · exact Or.inr ⟨p, hp, List.mem_cons_of_mem _ hpm⟩
        · intro hnone q hq hsq
          rcases List.mem_cons.mp hq with rfl | hq'
          · have hanone : acc.2 = none := by
              rcases h4 with h4 | ⟨p, hp, _⟩
              · rw [← h4]; exact hnone
              · rw [hp] at hnone; cases hnone
            have := hacc.1 hanone
            omega
          · exact h5 hnone q hq' hsq
    · have hstep : bestPluginStep m acc pn = acc := by
        rw [bestPluginStep, if_neg hs]
      rw [hstep]
      rcases ih acc hacc with ⟨h1, h2, h3, h4, h5⟩
      refine ⟨h1, ?_, h3, ?_, ?_⟩
      · intro q hq hsq
        rcases List.mem_cons.mp hq with rfl | hq'
        · exact absurd hsq hs
        · exact h2 q hq' hsq
      · rcases h4 with h4 | ⟨p, hp, hpm⟩
        · exact Or.inl h4
        · exact Or.inr ⟨p, hp, List.mem_cons_of_mem _ hpm⟩
      · intro hnone q hq hsq
        rcases List.mem_cons.mp hq with rfl | hq'
        · exact absurd hsq hs
        · exact h5 hnone q hq' hsq

/-- A string of length zero is the empty string. -/
theorem strLengthZero (p : String) (h : p.length = 0) : p = "" := by
  cases p with
  | mk data =>
    cases data with
    | nil => rfl
    | cons c rest => simp [String.length] at h

/-- A mapping that starts with a dotted plugin prefix is nonempty. -/
theorem strStartsWithDotNe (m p : String)
    (h : strStartsWith m (p ++ ".") = true) : ¬(m = "") := by
  rw [strStartsWith, List.isPrefixOf_iff_prefix] at h
  have hlen := h.length_le
  intro hme
  subst hme
  simp at hlen

/-- Counterexample to C1 as stated: with the empty string as the only declared
plugin name, the mapping `.run` starts with that name followed by a dot, yet
the binder selects nothing — the strict length comparison never lets a
zero-length name in — and falls through to the could-not-extract error instead
of binding plugin `\x22\x22` with operation `run`. -/
theorem pluginLongestMatchCounterexample :
    strStartsWith ".run" ("" ++ ".") = true ∧
    extractPluginNameAndOperationMappingFromOperation [("", "pv")] [""]
      "op" (.str ".run") 21 none (fun _ => false) false =
      .error (.logic 21) :=
  ⟨rfl, rfl⟩

/-- C1 (amended): whenever some declared plugin with a nonempty name prefixes
the operation mapping (name followed by a dot), the binder succeeds and binds
the plugin with the longest such name, the bound operation being the suffix of
the mapping after that dot; in particular with plugins `a` and `a.b` declared
and mapping `a.b.run`, the result is plugin `a.b` with operation `run`.  (A
matching plugin whose name is empty is never selected, because the loop only
takes strictly longer prefixes than the initial zero length.) -/
theorem pluginLongestMatchAmended :
    (∀ (α : Type) (plugins : List (String × α)) (pluginNames : List String)
       (operationName m : String) (errorCode : Nat)
       (resourceBase : Option String) (resourceExists : String → Bool)
       (isWorkflows : Bool) (p : String),
      p ∈ pluginNames → ¬(p = "") → strStartsWith m (p ++ ".") = true →
      (∀ q ∈ pluginNames, (dictGet plugins q).isSome = true) →
      ∃ longest v, longest ∈ pluginNames ∧
        strStartsWith m (longest ++ ".") = true ∧
        (∀ q ∈ pluginNames, strStartsWith m (q ++ ".") = true →
          q.length ≤ longest.length) ∧
        dictGet plugins longest = some v ∧
        extractPluginNameAndOperationMappingFromOperation plugins pluginNames
            operationName (.str m) errorCode resourceBase resourceExists
            isWorkflows =
          .ok ⟨operationName, some v,
            operationStruct longest (strDrop m (longest.length + 1)) none
              (if isWorkflows then "parameters" else "inputs")⟩) ∧
    extractPluginNameAndOperationMappingFromOperation
        [("a", "pa"), ("a.b", "pab")] ["a", "a.b"] "op" (.str "a.b.run") 10
        none (fun _ => false) false =
      .ok ⟨"op", some "pab", operationStruct "a.b" "run" none "inputs"⟩ := by
  constructor
  · intro α plugins pluginNames operationName m errorCode resourceBase
      resourceExists isWorkflows p hpmem hpne hps hlook
    have hm : ¬(m = "") := strStartsWithDotNe m p hps
    rcases foldBestSpec m pluginNames (0, none)
        ⟨fun _ => rfl, fun q hq => by cases hq⟩ with
      ⟨hAcc, hMax, _, hMove, hNone⟩
    cases hb : (pluginNames.foldl (bestPluginStep m) (0, none)).2 with
    | none =>
      exact absurd (strLengthZero p (hNone hb p hpmem hps)) hpne
    | some longest =>
      rcases hAcc.2 longest hb with ⟨hlen, _, hsl⟩
      have hQmem : longest ∈ pluginNames := by
        rcases hMove with hmv | ⟨p', hp', hpm⟩
        · rw [hmv] at hb; cases hb
        · rw [hp'] at hb
          cases hb
          exact hpm
      obtain ⟨v, hv⟩ := Option.isSome_iff_exists.mp (hlook longest hQmem)
      refine ⟨longest, v, hQmem, hsl, ?_, hv, ?_⟩
      · intro q hq hsq
        have := hMax q hq hsq
        omega
      · simp only [extractPluginNameAndOperationMappingFromOperation]
        rw [if_neg hm, hb]
        dsimp only
        rw [hv]
        dsimp only
        rw [hlen]
  · rfl

/-- Witness for C1 (amended) at the a / a.b example with a nonempty match. -/
theorem pluginLongestMatchAmendedWitness :
    ∃ longest v, longest ∈ ["a", "a.b"] ∧
      strStartsWith "a.b.run" (longest ++ ".") = true ∧
      (∀ q ∈ ["a", "a.b"], strStartsWith "a.b.run" (q ++ ".") = true →
        q.length ≤ longest.length) ∧
      dictGet [("a", "pa"), ("a.b", "pab")] longest = some v ∧
      extractPluginNameAndOperationMappingFromOperation
          [("a", "pa"), ("a.b", "pab")] ["a", "a.b"] "op" (.str "a.b.run") 10
          none (fun _ => false) false =
        .ok ⟨"op", some v,
          operationStruct longest (strDrop "a.b.run" (longest.length + 1)) none
            (if false then "parameters" else "inputs")⟩ :=
  pluginLongestMatchAmended.1 String [("a", "pa"), ("a.b", "pab")]
    ["a", "a.b"] "op" "a.b.run" 10 none (fun _ => false) false "a"
    (by decide) (by decide) (by decide) (by decide)

/-- Lookup after the in-place replacement performed by `dictSet` on a present
key: the replaced key reads the new value. -/
theorem dictGetMapReplaceSelf (k : String) (v : β) :
    ∀ (d : List (String × β)), dictContains d k = true →
    dictGet (d.map (fun p => if p.1 = k then (k, v) else p)) k = some v := by
  intro d
  induction d with
  | nil => intro hc; simp [dictContains, dictGet] at hc
  | cons p rest ih =>
    intro hc
    obtain ⟨k2, v2⟩ := p
    by_cases hk2 : k2 = k
    · simp only [List.map_cons]
      rw [if_pos hk2]
      rw [dictGet, if_pos rfl]
    · simp only [List.map_cons]
      rw [if_neg hk2]
      rw [dictGet, if_neg hk2]
      rw [dictContains, dictGet, if_neg hk2] at hc
      exact ih hc

/-- Lookup after the in-place replacement performed by `dictSet`: any other
key is unchanged. -/
theorem dictGetMapReplaceOther (k k' : String) (v : β) (hne : ¬(k' = k)) :
    ∀ (d : List (String × β)),
    dictGet (d.map (fun p => if p.1 = k then (k, v) else p)) k' =
      dictGet d k' := by
  intro d
  induction d with
  | nil => simp [dictGet]
  | cons p rest ih =>
    obtain ⟨k2, v2⟩ := p
    by_cases hk2 : k2 = k
    · simp only [List.map_cons]
      rw [if_pos hk2]
      rw [dictGet, if_neg (fun h : k = k' => hne h.symm)]
      rw [dictGet, if_neg (fun h : k2 = k' => hne (hk2 ▸ h).symm)]
      exact ih
    · simp only [List.map_cons]
      rw [if_neg hk2]
      rw [dictGet, dictGet]
      by_cases hk2' : k2 = k'
      · rw [if_pos hk2', if_pos hk2']
      · rw [if_neg hk2', if_neg hk2']
        exact ih

/-- Setting a key makes it present with the new value. -/
theorem dictGetSetSelf (d : List (String × β)) (k : String) (v : β) :
    dictGet (dictSet d k v) k = some v := by
  rw [dictSet]
  by_cases hc : dictContains d k = true
  · rw [if_pos hc]
    exact dictGetMapReplaceSelf k v d hc
  · rw [if_neg hc]
    rw [dictGetAppend]
    have hnone : dictGet d k = none := by
      rw [dictContains] at hc
      cases hg : dictGet d k with
      | none => rfl
      | some w => rw [hg] at hc; simp at hc
    rw [hnone]
    simp [dictGet]

/-- Setting a key leaves every other key unchanged. -/
theorem dictGetSetOther (d : List (String × β)) (k k' : String) (v : β)
    (hne : ¬(k' = k)) : dictGet (dictSet d k v) k' = dictGet d k' := by
  rw [dictSet]
  by_cases hc : dictContains d k = true
  · rw [if_pos hc]
    exact dictGetMapReplaceOther k k' v hne d
  · rw [if_neg hc]
    rw [dictGetAppend]
    cases hg : dictGet d k' with
    | some v2 => rfl
    | none =>
      have hkk : ¬(k = k') := fun h => hne h.symm
      simp [dictGet, hkk]

/-- A key that lookup misses is not among the dictionary keys. -/
theorem dictGetNoneNotMem (d : List (String × β)) (k : String)
    (h : dictGet d k = none) : k ∉ dictKeys d := by
  induction d with
  | nil => simp [dictKeys]
  | cons p rest ih =>
    obtain ⟨k', v'⟩ := p
    by_cases hk : k' = k
    · rw [dictGet, if_pos hk] at h
      cases h
    · rw [dictGet, if_neg hk] at h
      simp only [dictKeys, List.map_cons, List.mem_cons]
      rintro (rfl | hmem)
      · exact hk rfl
      · exact ih h (by simpa [dictKeys] using hmem)

/-- Setting a key preserves distinctness of the dictionary keys. -/
theorem dictSetKeysNodup (d : List (String × β)) (k : String) (v : β)
    (h : (dictKeys d).Nodup) : (dictKeys (dictSet d k v)).Nodup := by
  rw [dictSet]
  by_cases hc : dictContains d k = true
  · rw [if_pos hc]
    have hkeys : dictKeys (d.map (fun p => if p.1 = k then (k, v) else p)) =
        dictKeys d := by
      rw [dictKeys, dictKeys, List.map_map]
      apply List.map_congr_left
      intro p _
      by_cases hp : p.1 = k
      · simp [hp]
      · simp [hp]
    rw [hkeys]
    exact h
  · rw [if_neg hc]
    rw [dictKeys, List.map_append]
    refine List.Nodup.append h (by simp) ?_
    intro a ha hb
    simp at hb
    subst hb
    rw [dictContains] at hc
    have hnone : dictGet d a = none := by
      cases hg : dictGet d a with
      | none => rfl
      | some w => rw [hg] at hc; simp at hc
    exact dictGetNoneNotMem d a hnone ha

/-- Every descriptor the binder returns carries the operation name it was
asked about. -/
theorem extractOpName {α : Type} {plugins : List (String × α)}
    {pluginNames : List String} {operationName : String}
    {operationContent : OpContent} {errorCode : Nat}
    {resourceBase : Option String} {resourceExists : String → Bool}
    {isWorkflows : Bool} {d : OpDescriptor α}
    (h : extractPluginNameAndOperationMappingFromOperation plugins pluginNames
      operationName operationContent errorCode resourceBase resourceExists
      isWorkflows = .ok d) : d.name = operationName := by
  rw [extractPluginNameAndOperationMappingFromOperation.eq_def] at h
  dsimp only at h
  repeat' split at h
  all_goals cases h
  all_goals rfl

/-- The descriptors of a successfully bound interface are named by its
operation keys, in order. -/
theorem extractIfaceNames {α : Type} {plugins : List (String × α)}
    {errorCode : Nat} {resourceBase : Option String}
    {resourceExists : String → Bool} :
    ∀ {interface : Iface} {descs : List (OpDescriptor α)},
    extractPluginNamesAndOperationMappingFromInterface interface plugins
      errorCode resourceBase resourceExists = .ok descs →
    descs.map (fun d => d.name) = interface.map (fun q => q.1) := by
  intro interface
  induction interface with
  | nil =>
    intro descs h
    rw [extractPluginNamesAndOperationMappingFromInterface] at h
    cases h
    rfl
  | cons q rest ih =>
    intro descs h
    obtain ⟨operationName, operationContent⟩ := q
    rw [extractPluginNamesAndOperationMappingFromInterface] at h
    cases hd : extractPluginNameAndOperationMappingFromOperation plugins
        (dictKeys plugins) operationName operationContent errorCode
        resourceBase resourceExists false with
    | error e => rw [hd] at h; simp [Bind.bind, Except.bind] at h
    | ok d =>
      rw [hd] at h
      cases hr : extractPluginNamesAndOperationMappingFromInterface rest
          plugins errorCode resourceBase resourceExists with
      | error e =>
        rw [hr] at h
        simp [Bind.bind, Except.bind] at h
      | ok ds =>
        rw [hr] at h
        simp only [Bind.bind, Except.bind] at h
        cases h
        simp only [List.map_cons]
        rw [extractOpName hd, ih hr]

/-- Unfolding one descriptor step of the interface loop. -/
theorem processInterfaceStep {α : Type} (iname : String) (d : OpDescriptor α)
    (rest : List (OpDescriptor α)) (ops : OpsMap) (np : List (String × α)) :
    processInterfaceDescriptors iname (d :: rest) (ops, np) =
      processInterfaceDescriptors iname rest
        (dictSet
          (if dictContains ops d.name then dictSet ops d.name none
           else dictSet ops d.name (some d.op_struct))
          (iname ++ "." ++ d.name) (some d.op_struct),
         match d.plugin with
         | some pv => dictSet np d.op_struct.plugin pv
         | none => np) := by
  rw [processInterfaceDescriptors, processInterfaceDescriptors, List.foldl_cons]

/-- The effect of one interface on the operations dictionary, solved key by
key: keys not named by the interface are untouched; a short name seen twice
(or seen while already present) is marked for removal; a fresh short name seen
exactly once holds its operation struct; a long `interface.op` name holds a
struct provided no short name shadows it; key distinctness is preserved. -/
theorem interfaceOpsSpec {α : Type} (iname : String) :
    ∀ (descs : List (OpDescriptor α)) (ops : OpsMap) (np : List (String × α)),
    (∀ x, (∀ d ∈ descs, ¬(d.name = x) ∧ ¬(iname ++ "." ++ d.name = x)) →
      dictGet (processInterfaceDescriptors iname descs (ops, np)).1 x =
        dictGet ops x) ∧
    (∀ x, (∀ d ∈ descs, ¬(iname ++ "." ++ d.name = x)) →
      ((descs.map (fun d => d.name)).count x ≥ 2 ∨
        ((dictGet ops x).isSome = true ∧
          (descs.map (fun d => d.name)).count x ≥ 1)) →
      dictGet (processInterfaceDescriptors iname descs (ops, np)).1 x =
        some none) ∧
    (∀ x, (∀ d ∈ descs, ¬(iname ++ "." ++ d.name = x)) →
      dictGet ops x = none → (descs.map (fun d => d.name)).count x = 1 →
      ∃ s, dictGet (processInterfaceDescriptors iname descs (ops, np)).1 x =
        some (some s)) ∧
    (∀ x, (∀ d ∈ descs, ¬(d.name = x)) →
      ((∃ s0, dictGet ops x = some (some s0)) ∨
        ∃ d ∈ descs, iname ++ "." ++ d.name = x) →
      ∃ s, dictGet (processInterfaceDescriptors iname descs (ops, np)).1 x =
        some (some s)) ∧
    ((dictKeys ops).Nodup →
      (dictKeys (processInterfaceDescriptors iname descs (ops, np)).1).Nodup) := by
  intro descs
  induction descs with
  | nil =>
    intro ops np
    refine ⟨fun x _ => rfl, ?_, ?_, ?_, fun h => h⟩
    · intro x _ hcase
      rcases hcase with h | ⟨_, h⟩ <;> simp at h
    · intro x _ _ hcount
      simp at hcount
    · intro x _ hsrc
      rcases hsrc with ⟨s0, h⟩ | ⟨d, hd, _⟩
      · exact ⟨s0, h⟩
      · cases hd
  | cons d rest ih =>
    intro ops np
    rw [processInterfaceStep]
    set ops1 := (if dictContains ops d.name then dictSet ops d.name none
      else dictSet ops d.name (some d.op_struct)) with hops1
    set ops2 := dictSet ops1 (iname ++ "." ++ d.name) (some d.op_struct)
      with hops2
    set np2 := (match d.plugin with
      | some pv => dictSet np d.op_struct.plugin pv
      | none => np) with hnp2
    have hgetOther : ∀ x, ¬(iname ++ "." ++ d.name = x) → ¬(d.name = x) →
        dictGet ops2 x = dictGet ops x := by
      intro x h1 h2
      rw [hops2, dictGetSetOther _ _ _ _ (fun h => h1 h.symm), hops1]
      by_cases hc : dictContains ops d.name = true
      · rw [if_pos hc, dictGetSetOther _ _ _ _ (fun h => h2 h.symm)]
      · rw [if_neg hc, dictGetSetOther _ _ _ _ (fun h => h2 h.symm)]
    have hgetL : dictGet ops2 (iname ++ "." ++ d.name) =
        some (some d.op_struct) := by
      rw [hops2]
      exact dictGetSetSelf _ _ _
    have hgetShort : ∀ x, ¬(iname ++ "." ++ d.name = x) → d.name = x →
        dictGet ops2 x = (if (dictGet ops x).isSome = true then some none
          else some (some d.op_struct)) := by
      intro x h1 h2
      rw [hops2, dictGetSetOther _ _ _ _ (fun h => h1 h.symm), hops1, ← h2]
      by_cases hc : (dictGet ops d.name).isSome = true
      · rw [if_pos (by rw [dictContains]; exact hc), dictGetSetSelf, if_pos hc]
      · rw [if_neg (by rw [dictContains]; exact hc), dictGetSetSelf, if_neg hc]
    have hnodup2 : (dictKeys ops).Nodup → (dictKeys ops2).Nodup := by
      intro h
      rw [hops2]
      apply dictSetKeysNodup
      rw [hops1]
      by_cases hc : dictContains ops d.name = true
      · rw [if_pos hc]; exact dictSetKeysNodup _ _ _ h
      · rw [if_neg hc]; exact dictSetKeysNodup _ _ _ h
    rcases ih ops2 np2 with ⟨ih1, ih2, ih3, ih4, ih5⟩
    refine ⟨?_, ?_, ?_, ?_, fun h => ih5 (hnodup2 h)⟩
    · intro x hx
      obtain ⟨hnd, hnl⟩ := hx d (List.mem_cons_self _ _)
      have hrest : ∀ d' ∈ rest, ¬(d'.name = x) ∧
          ¬(iname ++ "." ++ d'.name = x) :=
        fun d' hd' => hx d' (List.mem_cons_of_mem _ hd')
      rw [ih1 x hrest, hgetOther x hnl hnd]
    · intro x hxl hcase
      have hL := hxl d (List.mem_cons_self _ _)
      have hxlrest : ∀ d' ∈ rest, ¬(iname ++ "." ++ d'.name = x) :=
        fun d' hd' => hxl d' (List.mem_cons_of_mem _ hd')
      by_cases hdn : d.name = x
      · have hcnt : ((d :: rest).map (fun d => d.name)).count x =
            (rest.map (fun d => d.name)).count x + 1 := by
          simp [List.count_cons, hdn]
        by_cases hc : (dictGet ops x).isSome = true
        · have h2 : dictGet ops2 x = some none := by
            rw [hgetShort x hL hdn, if_pos hc]
          by_cases hr : (rest.map (fun d => d.name)).count x = 0
          · have hnm : x ∉ rest.map (fun d => d.name) :=
              List.count_eq_zero.mp hr
            have hrestu : ∀ d' ∈ rest, ¬(d'.name = x) ∧
                ¬(iname ++ "." ++ d'.name = x) := by
              intro d' hd'
              refine ⟨?_, hxlrest d' hd'⟩
              intro hx'
              exact hnm (hx' ▸ List.mem_map_of_mem (fun d => d.name) hd')
            rw [ih1 x hrestu, h2]
          · refine ih2 x hxlrest (Or.inr ⟨by rw [h2]; rfl, by omega⟩)
        · have h2 : dictGet ops2 x = some (some d.op_struct) := by
            rw [hgetShort x hL hdn, if_neg hc]
          have hge2 : ((d :: rest).map (fun d => d.name)).count x ≥ 2 := by
            rcases hcase with h | ⟨hs, _⟩
            · exact h
            · exact absurd hs hc
          refine ih2 x hxlrest (Or.inr ⟨by rw [h2]; rfl, by omega⟩)
      · have hcnt : ((d :: rest).map (fun d => d.name)).count x =
            (rest.map (fun d => d.name)).count x := by
          simp [List.count_cons, hdn]
        have h2 : dictGet ops2 x = dictGet ops x := hgetOther x hL hdn
        apply ih2 x hxlrest
        rcases hcase with h | ⟨hs, hk⟩
        · exact Or.inl (by omega)
        · exact Or.inr ⟨by rw [h2]; exact hs, by omega⟩
    · intro x hxl hnone hcnt1
      have hL := hxl d (List.mem_cons_self _ _)
      have hxlrest : ∀ d' ∈ rest, ¬(iname ++ "." ++ d'.name = x) :=
        fun d' hd' => hxl d' (List.mem_cons_of_mem _ hd')
      by_cases hdn : d.name = x
      · have hcnt' : (rest.map (fun d => d.name)).count x + 1 = 1 := by
          simpa [List.count_cons, hdn] using hcnt1
        have hnm : x ∉ rest.map (fun d => d.name) :=
          List.count_eq_zero.mp (by omega)
        have hc : ¬((dictGet ops x).isSome = true) := by
          rw [hnone]
          simp
        have h2 : dictGet ops2 x = some (some d.op_struct) := by
          rw [hgetShort x hL hdn, if_neg hc]
        have hrestu : ∀ d' ∈ rest, ¬(d'.name = x) ∧
            ¬(iname ++ "." ++ d'.name = x) := by
          intro d' hd'
          refine ⟨?_, hxlrest d' hd'⟩
          intro hx'
          exact hnm (hx' ▸ List.mem_map_of_mem (fun d => d.name) hd')
        exact ⟨d.op_struct, by rw [ih1 x hrestu, h2]⟩
      · have hcnt' : (rest.map (fun d => d.name)).count x = 1 := by
          simpa [List.count_cons, hdn] using hcnt1
        have h2 : dictGet ops2 x = dictGet ops x := hgetOther x hL hdn
        exact ih3 x hxlrest (by rw [h2]; exact hnone) hcnt'
    · intro x hxs hsrc
      have hnd := hxs d (List.mem_cons_self _ _)
      have hxsrest : ∀ d' ∈ rest, ¬(d'.name = x) :=
        fun d' hd' => hxs d' (List.mem_cons_of_mem _ hd')
      by_cases hxL : iname ++ "." ++ d.name = x
      · have h2 : dictGet ops2 x = some (some d.op_struct) := by
          rw [← hxL]
          exact hgetL
        exact ih4 x hxsrest (Or.inl ⟨d.op_struct, h2⟩)
      · have h2 : dictGet ops2 x = dictGet ops x := hgetOther x hxL hnd
        rcases hsrc with ⟨s0, h⟩ | ⟨d', hd', hL'⟩
        · exact ih4 x hxsrest (Or.inl ⟨s0, by rw [h2]; exact h⟩)
        · rcases List.mem_cons.mp hd' with rfl | hd'r
          · exact absurd hL' hxL
          · exact ih4 x hxsrest (Or.inr ⟨d', hd'r, hL'⟩)

/-- All short operation names declared across an interface dictionary, in
order (one occurrence per declaring interface). -/
def shortNamesOf : IfaceDict → List String
  | [] => []
  | i :: rest => i.2.map (fun q => q.1) ++ shortNamesOf rest

/-- All qualified `interface.op` names declared across an interface
dictionary, in order. -/
def longNamesOf : IfaceDict → List String
  | [] => []
  | i :: rest => i.2.map (fun q => i.1 ++ "." ++ q.1) ++ longNamesOf rest

/-- The interface loop of `_process_context_operations`, solved key by key on
a successful run (before the removal filter): untouched keys keep their value,
a short name claimed at least twice (or claimed while already present) is
marked for removal, a fresh short name claimed exactly once holds a struct, a
long name not shadowed by any short name holds a struct, and key distinctness
is preserved. -/
theorem contextLoopSpec {α : Type} (plugins : List (String × α))
    (errorCode : Nat) (resourceBase : Option String)
    (resourceExists : String → Bool) :
    ∀ (ifaces : IfaceDict) (ops : OpsMap) (np : List (String × α))
      (st' : OpsMap × List (String × α)),
    processContextLoop plugins errorCode resourceBase resourceExists (ops, np)
      ifaces = .ok st' →
    (∀ x, x ∉ shortNamesOf ifaces → x ∉ longNamesOf ifaces →
      dictGet st'.1 x = dictGet ops x) ∧
    (∀ x, x ∉ longNamesOf ifaces →
      ((shortNamesOf ifaces).count x ≥ 2 ∨
        ((dictGet ops x).isSome = true ∧
          (shortNamesOf ifaces).count x ≥ 1)) →
      dictGet st'.1 x = some none) ∧
    (∀ x, x ∉ longNamesOf ifaces → dictGet ops x = none →
      (shortNamesOf ifaces).count x = 1 →
      ∃ s, dictGet st'.1 x = some (some s)) ∧
    (∀ x, x ∉ shortNamesOf ifaces →
      ((∃ s0, dictGet ops x = some (some s0)) ∨ x ∈ longNamesOf ifaces) →
      ∃ s, dictGet st'.1 x = some (some s)) ∧
    ((dictKeys ops).Nodup → (dictKeys st'.1).Nodup) := by
  intro ifaces
  induction ifaces with
  | nil =>
    intro ops np st' h
    rw [processContextLoop] at h
    cases h
    refine ⟨fun x _ _ => rfl, ?_, ?_, ?_, fun h => h⟩
    · intro x _ hcase
      rcases hcase with h | ⟨_, h⟩ <;> simp [shortNamesOf] at h
    · intro x _ _ hcount
      simp [shortNamesOf] at hcount
    · intro x _ hsrc
      rcases hsrc with ⟨s0, h⟩ | h
      · exact ⟨s0, h⟩
      · simp [longNamesOf] at h
  | cons i rest ih =>
    obtain ⟨iname, iface⟩ := i
    intro ops np st' h
    rw [processContextLoop] at h
    cases hd : extractPluginNamesAndOperationMappingFromInterface iface
        plugins errorCode resourceBase resourceExists with
    | error e =>
      rw [hd] at h
      simp [Bind.bind, Except.bind] at h
    | ok descs =>
      rw [hd] at h
      simp only [Bind.bind, Except.bind] at h
      rcases hPI : processInterfaceDescriptors iname descs (ops, np) with
        ⟨ops2, np2⟩
      rw [hPI] at h
      have hnames : descs.map (fun d => d.name) = iface.map (fun q => q.1) :=
        extractIfaceNames hd
      rcases interfaceOpsSpec iname descs ops np with ⟨p1, p2, p3, p4, p5⟩
      simp only [hPI] at p1 p2 p3 p4 p5
      rcases ih ops2 np2 st' h with ⟨ih1, ih2, ih3, ih4, ih5⟩
      have hshortmem : ∀ d ∈ descs, d.name ∈ iface.map (fun q => q.1) := by
        intro d hdmem
        rw [← hnames]
        exact List.mem_map_of_mem (fun d => d.name) hdmem
      have hlongmem : ∀ d ∈ descs,
          iname ++ "." ++ d.name ∈ iface.map (fun q => iname ++ "." ++ q.1) := by
        intro d hdmem
        rcases List.mem_map.mp (hshortmem d hdmem) with ⟨q, hq, hqe⟩
        exact List.mem_map.mpr ⟨q, hq, by rw [hqe]⟩
      have hcountd : ∀ x, (descs.map (fun d => d.name)).count x =
          (iface.map (fun q => q.1)).count x := by
        intro x
        rw [hnames]
      refine ⟨?_, ?_, ?_, ?_, ?_⟩
      · intro x hxs hxl
        rw [shortNamesOf] at hxs
        rw [longNamesOf] at hxl
        rcases not_or.mp ((List.mem_append).not.mp hxs) with ⟨hxs1, hxs2⟩
        rcases not_or.mp ((List.mem_append).not.mp hxl) with ⟨hxl1, hxl2⟩
        have hu : ∀ d ∈ descs, ¬(d.name = x) ∧
            ¬(iname ++ "." ++ d.name = x) := by
          intro d hdmem
          constructor
          · intro he; exact hxs1 (he ▸ hshortmem d hdmem)
          · intro he; exact hxl1 (he ▸ hlongmem d hdmem)
        rw [ih1 x hxs2 hxl2, p1 x hu]
      · intro x hxl hcase
        rw [longNamesOf] at hxl
        rcases not_or.mp ((List.mem_append).not.mp hxl) with ⟨hxl1, hxl2⟩
        have hpL : ∀ d ∈ descs, ¬(iname ++ "." ++ d.name = x) := by
          intro d hdmem he
          exact hxl1 (he ▸ hlongmem d hdmem)
        have hcnt : (shortNamesOf ((iname, iface) :: rest)).count x =
            (iface.map (fun q => q.1)).count x +
              (shortNamesOf rest).count x := by
          rw [shortNamesOf, List.count_append]
        by_cases hc1 : (iface.map (fun q => q.1)).count x = 0
        · have hx1 : x ∉ iface.map (fun q => q.1) := List.count_eq_zero.mp hc1
          have hu : ∀ d ∈ descs, ¬(d.name = x) ∧
              ¬(iname ++ "." ++ d.name = x) := by
            intro d hdmem
            refine ⟨fun he => hx1 (he ▸ hshortmem d hdmem), hpL d hdmem⟩
          have h2 : dictGet ops2 x = dictGet ops x := p1 x hu
          apply ih2 x hxl2
          rcases hcase with hcase | ⟨hs, hk⟩
          · exact Or.inl (by omega)
          · exact Or.inr ⟨by rw [h2]; exact hs, by omega⟩
        · by_cases hs : (dictGet ops x).isSome = true
          · have h2 : dictGet ops2 x = some none := by
              apply p2 x hpL
              exact Or.inr ⟨hs, by rw [hcountd]; omega⟩
            by_cases hc2 : (shortNamesOf rest).count x = 0
            · have hx2 : x ∉ shortNamesOf rest := List.count_eq_zero.mp hc2
              rw [ih1 x hx2 hxl2, h2]
            · exact ih2 x hxl2 (Or.inr ⟨by rw [h2]; rfl, by omega⟩)
          · have hnone : dictGet ops x = none := by
              cases hg : dictGet ops x with
              | none => rfl
              | some w => rw [hg] at hs; simp at hs
            by_cases hc1' : (iface.map (fun q => q.1)).count x ≥ 2
            · have h2 : dictGet ops2 x = some none := by
                apply p2 x hpL
                exact Or.inl (by rw [hcountd]; omega)
              by_cases hc2 : (shortNamesOf rest).count x = 0
              · have hx2 : x ∉ shortNamesOf rest := List.count_eq_zero.mp hc2
                rw [ih1 x hx2 hxl2, h2]
              · exact ih2 x hxl2 (Or.inr ⟨by rw [h2]; rfl, by omega⟩)
            · have hc1e : (iface.map (fun q => q.1)).count x = 1 := by omega
              obtain ⟨s, h2⟩ := p3 x hpL hnone (by rw [hcountd]; omega)
              have htot : (shortNamesOf rest).count x ≥ 1 := by
                rcases hcase with hcase | ⟨hs', _⟩
                · omega
                · exact absurd hs' hs
              exact ih2 x hxl2 (Or.inr ⟨by rw [h2]; rfl, htot⟩)
      · intro x hxl hnone hcnt1
        rw [longNamesOf] at hxl
        rcases not_or.mp ((List.mem_append).not.mp hxl) with ⟨hxl1, hxl2⟩
        have hpL : ∀ d ∈ descs, ¬(iname ++ "." ++ d.name = x) := by
          intro d hdmem he
          exact hxl1 (he ▸ hlongmem d hdmem)
        have hcnt : (iface.map (fun q => q.1)).count x +
            (shortNamesOf rest).count x = 1 := by
          rw [shortNamesOf, List.count_append] at hcnt1
          dsimp only at hcnt1
          omega
        by_cases hc1 : (iface.map (fun q => q.1)).count x = 0
        · have hx1 : x ∉ iface.map (fun q => q.1) := List.count_eq_zero.mp hc1
          have hu : ∀ d ∈ descs, ¬(d.name = x) ∧
              ¬(iname ++ "." ++ d.name = x) := by
            intro d hdmem
            refine ⟨fun he => hx1 (he ▸ hshortmem d hdmem), hpL d hdmem⟩
          have h2 : dictGet ops2 x = dictGet ops x := p1 x hu
          exact ih3 x hxl2 (by rw [h2]; exact hnone) (by omega)
        · have hc1e : (iface.map (fun q => q.1)).count x = 1 := by omega
          obtain ⟨s, h2⟩ := p3 x hpL hnone (by rw [hcountd]; omega)
          have hc2 : (shortNamesOf rest).count x = 0 := by omega
          have hx2 : x ∉ shortNamesOf rest := List.count_eq_zero.mp hc2
          exact ⟨s, by rw [ih1 x hx2 hxl2, h2]⟩
      · intro x hxs hsrc
        rw [shortNamesOf] at hxs
        rcases not_or.mp ((List.mem_append).not.mp hxs) with ⟨hxs1, hxs2⟩
        have hpS : ∀ d ∈ descs, ¬(d.name = x) := by
          intro d hdmem he
          exact hxs1 (he ▸ hshortmem d hdmem)
        rcases hsrc with ⟨s0, hsv⟩ | hlm
        · obtain ⟨s, h2⟩ := p4 x hpS (Or.inl ⟨s0, hsv⟩)
          exact ih4 x hxs2 (Or.inl ⟨s, h2⟩)
        · rw [longNamesOf] at hlm
          rcases List.mem_append.mp hlm with hlm1 | hlm2
          · rcases List.mem_map.mp hlm1 with ⟨q, hq, hqe⟩
            have hqn : q.1 ∈ descs.map (fun d => d.name) := by
              rw [hnames]
              exact List.mem_map_of_mem (fun q => q.1) hq
            rcases List.mem_map.mp hqn with ⟨d, hdmem, hde⟩
            obtain ⟨s, h2⟩ := p4 x hpS
              (Or.inr ⟨d, hdmem, by rw [hde, hqe]⟩)
            exact ih4 x hxs2 (Or.inl ⟨s, h2⟩)
          · by_cases hhl : x ∈ iface.map (fun q => iname ++ "." ++ q.1)
            · rcases List.mem_map.mp hhl with ⟨q, hq, hqe⟩
              have hqn : q.1 ∈ descs.map (fun d => d.name) := by
                rw [hnames]
                exact List.mem_map_of_mem (fun q => q.1) hq
              rcases List.mem_map.mp hqn with ⟨d, hdmem, hde⟩
              obtain ⟨s, h2⟩ := p4 x hpS
                (Or.inr ⟨d, hdmem, by rw [hde, hqe]⟩)
              exact ih4 x hxs2 (Or.inl ⟨s, h2⟩)
            · have hu : ∀ d ∈ descs, ¬(d.name = x) ∧
                  ¬(iname ++ "." ++ d.name = x) := by
                intro d hdmem
                refine ⟨hpS d hdmem, fun he => hhl (he ▸ hlongmem d hdmem)⟩
              have h2 : dictGet ops2 x = dictGet ops x := p1 x hu
              obtain ⟨s, h3⟩ := ih4 x hxs2 (Or.inr hlm2)
              exact ⟨s, h3⟩
      · intro hnd
        exact ih5 (p5 hnd)

/-- Unfolding lemma for lookup at a cons cell. -/
theorem dictGetCons (k' : String) (v : β) (rest : List (String × β))
    (k : String) :
    dictGet ((k', v) :: rest) k = if k' = k then some v else dictGet rest k :=
  rfl

/-- A key absent from the dictionary keys looks up to nothing. -/
theorem notMemKeysGetNone {β : Type} (l : List (String × β)) (x : String)
    (h : x ∉ dictKeys l) : dictGet l x = none := by
  cases hg : dictGet l x with
  | none => rfl
  | some v =>
    have hm : x ∈ dictKeys l := by
      rw [dictKeys]
      refine List.mem_map.mpr ⟨(x, v), ?_, rfl⟩
      exact dictGetMem hg
    exact absurd hm h

/-- Filtering out the removal markers preserves absence. -/
theorem dictGetFilterNone :
    ∀ (l : OpsMap) (x : String), dictGet l x = none →
    dictGet (l.filterMap (fun p => p.2.map (fun s => (p.1, s)))) x = none := by
  intro l
  induction l with
  | nil => intro x _; rfl
  | cons p rest ih =>
    intro x hx
    obtain ⟨k, vo⟩ := p
    rw [dictGetCons] at hx
    by_cases hk : k = x
    · rw [if_pos hk] at hx
      cases hx
    · rw [if_neg hk] at hx
      cases vo with
      | none =>
        show dictGet
          (List.filterMap (fun p => Option.map (fun s => (p.1, s)) p.2) rest)
          x = none
        exact ih x hx
      | some s =>
        show dictGet ((k, s) ::
          List.filterMap (fun p => Option.map (fun s => (p.1, s)) p.2) rest)
          x = none
        rw [dictGetCons, if_neg hk]
        exact ih x hx

/-- Lookup in the filtered operations dictionary, under distinct keys:
the marker `none` disappears, a real struct stays. -/
theorem dictGetFilterMap :
    ∀ (l : OpsMap), (dictKeys l).Nodup → ∀ (x : String),
    dictGet (l.filterMap (fun p => p.2.map (fun s => (p.1, s)))) x =
      (dictGet l x).bind id := by
  intro l
  induction l with
  | nil => intro _ x; rfl
  | cons p rest ih =>
    intro hnd x
    obtain ⟨k, vo⟩ := p
    have hk_notin : k ∉ dictKeys rest := by
      rw [dictKeys, List.map_cons] at hnd
      exact (List.nodup_cons.mp hnd).1
    have hnd' : (dictKeys rest).Nodup := by
      rw [dictKeys, List.map_cons] at hnd
      exact (List.nodup_cons.mp hnd).2
    rw [dictGetCons]
    by_cases hk : k = x
    · subst hk
      rw [if_pos rfl]
      cases vo with
      | none =>
        show dictGet
          (List.filterMap (fun p => Option.map (fun s => (p.1, s)) p.2) rest)
          k = (some (none : Option OpStruct)).bind id
        rw [dictGetFilterNone rest k (notMemKeysGetNone rest k hk_notin)]
        rfl
      | some s =>
        show dictGet ((k, s) ::
          List.filterMap (fun p => Option.map (fun s => (p.1, s)) p.2) rest)
          k = (some (some s)).bind id
        rw [dictGetCons, if_pos rfl]
        rfl
    · rw [if_neg hk]
      cases vo with
      | none =>
        show dictGet
          (List.filterMap (fun p => Option.map (fun s => (p.1, s)) p.2) rest)
          x = (dictGet rest x).bind id
        exact ih hnd' x
      | some s =>
        show dictGet ((k, s) ::
          List.filterMap (fun p => Option.map (fun s => (p.1, s)) p.2) rest)
          x = (dictGet rest x).bind id
        rw [dictGetCons, if_neg hk]
        exact ih hnd' x

/-- Each owning interface contributes its qualified name to the long-name
list. -/
theorem memLongNames : ∀ (ifaces : IfaceDict) (i : String × Iface),
    i ∈ ifaces → ∀ q ∈ i.2, i.1 ++ "." ++ q.1 ∈ longNamesOf ifaces := by
  intro ifaces
  induction ifaces with
  | nil => intro i hi; cases hi
  | cons j rest ih =>
    intro i hi q hq
    rw [longNamesOf]
    rcases List.mem_cons.mp hi with rfl | hir
    · exact List.mem_append.mpr (Or.inl (List.mem_map_of_mem _ hq))
    · exact List.mem_append.mpr (Or.inr (ih i hir q hq))

/-- With per-interface operation keys distinct (as Python dictionaries are),
the number of occurrences of a short name equals the number of interfaces
owning it. -/
theorem countJoinOwners (o : String) : ∀ (ifaces : IfaceDict),
    (∀ i ∈ ifaces, (i.2.map (fun q => q.1)).Nodup) →
    (shortNamesOf ifaces).count o =
      ifaces.countP (fun i => i.2.any (fun q => q.1 == o)) := by
  intro ifaces
  induction ifaces with
  | nil => intro _; rfl
  | cons i rest ih =>
    intro hnd
    rw [shortNamesOf, List.count_append, List.countP_cons]
    rw [ih (fun j hj => hnd j (List.mem_cons_of_mem _ hj))]
    have hhead : (i.2.map (fun q => q.1)).count o =
        if i.2.any (fun q => q.1 == o) = true then 1 else 0 := by
      by_cases hmem : o ∈ i.2.map (fun q => q.1)
      · rw [if_pos ?hp]
        · exact List.count_eq_one_of_mem (hnd i (List.mem_cons_self _ _)) hmem
        · rcases List.mem_map.mp hmem with ⟨q, hq, hqe⟩
          exact List.any_eq_true.mpr ⟨q, hq, by simp [hqe]⟩
      · rw [if_neg ?hn]
        · exact List.count_eq_zero.mpr hmem
        · intro hany
          rcases List.any_eq_true.mp hany with ⟨q, hq, hqe⟩
          exact hmem (List.mem_map.mpr ⟨q, hq, by simpa using hqe⟩)
    rw [hhead, Nat.add_comm]

/-- Counterexample to C6 as stated: with interfaces `a` (operation `b`) and
`x` (operation `a.b`), the short name `a.b` is owned by exactly one interface
(`x`), yet it is removed from the resulting operations dictionary — the
qualified name `a.b` of operation `b` of interface `a` collides with it, so
the short entry is overwritten with the removal marker. -/
theorem operationShortNameCounterexample :
    processContextOperations
        [("a", [("b", OpContent.str "")]), ("x", [("a.b", OpContent.str "")])]
        ([] : List (String × Unit)) [] 10 none (fun _ => false) =
      .ok ([("b", operationStruct "" "" (some []) "inputs"),
            ("x.a.b", operationStruct "" "" (some []) "inputs")], []) ∧
    dictGet [("b", operationStruct "" "" (some []) "inputs"),
             ("x.a.b", operationStruct "" "" (some []) "inputs")] "a.b" =
      (none : Option OpStruct) ∧
    ([("a", [("b", OpContent.str "")]),
      ("x", [("a.b", OpContent.str "")])] : IfaceDict).countP
      (fun i => i.2.any (fun q => q.1 == "a.b")) = 1 :=
  ⟨rfl, rfl, rfl⟩

/-- C6 (amended): provided no qualified `interface.op` name coincides with a
short operation name, the short-name rule of `_process_context_operations`
holds — a short operation name declared by two or more interfaces is removed
from the resulting operations dictionary while the qualified entry of every
owning interface remains, and a short name declared exactly once is kept
alongside its qualified entry; with per-interface operation keys distinct (as
Python dictionaries guarantee), occurrences of a short name are exactly its
owning interfaces. -/
theorem operationShortNameHandling :
    ∀ (α : Type) (interfaces : IfaceDict) (plugins : List (String × α))
      (nodePlugins : List (String × α)) (errorCode : Nat)
      (resourceBase : Option String) (resourceExists : String → Bool)
      (ops : List (String × OpStruct)) (npOut : List (String × α)),
    processContextOperations interfaces plugins nodePlugins errorCode
      resourceBase resourceExists = .ok (ops, npOut) →
    (∀ l ∈ longNamesOf interfaces, l ∉ shortNamesOf interfaces) →
    ∀ o,
      ((shortNamesOf interfaces).count o ≥ 2 →
        dictGet ops o = none ∧
        ∀ i ∈ interfaces, ∀ q ∈ i.2, q.1 = o →
          ∃ s, dictGet ops (i.1 ++ "." ++ o) = some s) ∧
      ((shortNamesOf interfaces).count o = 1 →
        (∃ s, dictGet ops o = some s) ∧
        ∀ i ∈ interfaces, ∀ q ∈ i.2, q.1 = o →
          ∃ s, dictGet ops (i.1 ++ "." ++ o) = some s) ∧
      ((∀ i ∈ interfaces, (i.2.map (fun q => q.1)).Nodup) →
        (shortNamesOf interfaces).count o =
          interfaces.countP (fun i => i.2.any (fun q => q.1 == o))) := by
  intro α interfaces plugins nodePlugins errorCode resourceBase resourceExists
    ops npOut hok hsep o
  rw [processContextOperations] at hok
  simp only [Bind.bind, Except.bind] at hok
  cases hloop : processContextLoop plugins errorCode resourceBase
      resourceExists ([], nodePlugins) interfaces with
  | error e => rw [hloop] at hok; cases hok
  | ok st' =>
    rw [hloop] at hok
    simp only [pure, Except.pure] at hok
    have hops : st'.1.filterMap (fun p => p.2.map (fun s => (p.1, s))) = ops := by
      have h1 := congrArg Prod.fst (Except.ok.inj hok)
      simpa using h1
    rcases contextLoopSpec plugins errorCode resourceBase resourceExists
      interfaces [] nodePlugins st' hloop with ⟨l1, l2, l3, l4, l5⟩
    have hndk : (dictKeys st'.1).Nodup := l5 (by simp [dictKeys])
    have hfm : ∀ x, dictGet ops x = (dictGet st'.1 x).bind id := by
      intro x
      rw [← hops]
      exact dictGetFilterMap st'.1 hndk x
    have hlongGood : ∀ i ∈ interfaces, ∀ q ∈ i.2, q.1 = o →
        ∃ s, dictGet ops (i.1 ++ "." ++ o) = some s := by
      intro i hi q hq hqo
      have hLmem : i.1 ++ "." ++ o ∈ longNamesOf interfaces := by
        rw [← hqo]
        exact memLongNames interfaces i hi q hq
      have hLns : i.1 ++ "." ++ o ∉ shortNamesOf interfaces :=
        hsep (i.1 ++ "." ++ o) hLmem
      obtain ⟨s, hs⟩ := l4 (i.1 ++ "." ++ o) hLns (Or.inr hLmem)
      exact ⟨s, by rw [hfm, hs]; rfl⟩
    refine ⟨fun hcount => ?_, fun hcount => ?_, fun hnodup => ?_⟩
    · have homem : o ∈ shortNamesOf interfaces := by
        by_contra hcon
        rw [List.count_eq_zero.mpr hcon] at hcount
        omega
      have honl : o ∉ longNamesOf interfaces := by
        intro hcon
        exact hsep o hcon homem
      have h2 : dictGet st'.1 o = some none :=
        l2 o honl (Or.inl hcount)
      exact ⟨by rw [hfm, h2]; rfl, hlongGood⟩
    · have honl : o ∉ longNamesOf interfaces := by
        intro hcon
        apply hsep o hcon
        by_contra hcon2
        rw [List.count_eq_zero.mpr hcon2] at hcount
        omega
      obtain ⟨s, h2⟩ := l3 o honl rfl hcount
      exact ⟨⟨s, by rw [hfm, h2]; rfl⟩, hlongGood⟩
    · exact countJoinOwners o interfaces hnodup

/-- Witness for C6 (amended): interfaces `lifecycle` and `maintenance` both
declare operation `start`; the short entry disappears while both qualified
entries remain. -/
theorem operationShortNameHandlingWitness :
    dictGet ([("lifecycle.start", operationStruct "" "" (some []) "inputs"),
              ("maintenance.start", operationStruct "" "" (some []) "inputs")] :
        List (String × OpStruct)) "start" = none ∧
    ∀ i ∈ ([("lifecycle", [("start", OpContent.str "")]),
            ("maintenance", [("start", OpContent.str "")])] : IfaceDict),
      ∀ q ∈ i.2, q.1 = "start" →
        ∃ s, dictGet
          ([("lifecycle.start", operationStruct "" "" (some []) "inputs"),
            ("maintenance.start", operationStruct "" "" (some []) "inputs")] :
            List (String × OpStruct)) (i.1 ++ "." ++ "start") = some s :=
  (operationShortNameHandling Unit
    [("lifecycle", [("start", OpContent.str "")]),
     ("maintenance", [("start", OpContent.str "")])]
    [] [] 10 none (fun _ => false)
    [("lifecycle.start", operationStruct "" "" (some []) "inputs"),
     ("maintenance.start", operationStruct "" "" (some []) "inputs")]
    [] rfl (by decide) "start").1 (by decide)
